import Mathlib

/-!
Verification development for the markdown-in-comments rendering core
(`src/markdownCommentProvider.ts`).

The TypeScript source is embedded shallowly: document text is a `List Char`,
each JavaScript regular expression used by the provider is hand-compiled to an
executable matcher with the exact semantics of that one pattern (lazy/greedy
quantifiers, lookarounds, multiline anchors, JS character classes), and the
stateful decoration pipeline becomes pure functions from text to lists of
matches and overlay instructions.
-/

namespace MdInComments

/-- Characters matched by the JavaScript `\s` class. -/
def isJsWs (c : Char) : Bool :=
  c = ' ' || c = '\t' || c = '\n' || c = '\r' || c = '\x0b' || c = '\x0c' ||
  c = '\u00A0' || c = '\u1680' || ('\u2000' ≤ c && c ≤ '\u200A') ||
  c = '\u2028' || c = '\u2029' || c = '\u202F' || c = '\u205F' ||
  c = '\u3000' || c = '\uFEFF'

/-- JavaScript line terminators (what multiline `^`/`$` anchor on and `.` excludes). -/
def isLineTerm (c : Char) : Bool :=
  c = '\n' || c = '\r' || c = '\u2028' || c = '\u2029'

/-- The JavaScript `.` class (without the `s` flag). -/
def isDot (c : Char) : Bool := !(isLineTerm c)

/-- The JavaScript `\w` class. -/
def isWordChar (c : Char) : Bool :=
  ('a' ≤ c && c ≤ 'z') || ('A' ≤ c && c ≤ 'Z') || ('0' ≤ c && c ≤ '9') || c = '_'

/-- The JavaScript `\d` class. -/
def isDigitCh (c : Char) : Bool := '0' ≤ c && c ≤ '9'

/-- String literal to character list. -/
def strToL (s : String) : List Char := s.data

/-- Split a character list at newline characters, JS `text.split('\n')`. -/
def splitOnNl : List Char → List (List Char)
  | [] => [[]]
  | c :: t =>
    if c = '\n' then [] :: splitOnNl t
    else
      match splitOnNl t with
      | [] => [[c]]
      | h :: r => (c :: h) :: r

/-- Join lines with newline characters, JS `lines.join('\n')`. -/
def joinNl : List (List Char) → List Char
  | [] => []
  | [l] => l
  | l :: r => l ++ '\n' :: joinNl r

/-- JS `String.prototype.trim`: strip JS whitespace from both ends. -/
def trimJs (l : List Char) : List Char :=
  ((l.dropWhile isJsWs).reverse.dropWhile isJsWs).reverse

/-- Auxiliary scan for `indexOfFrom` over the remaining suffix. -/
def indexOfAux (needle : List Char) : List Char → Nat → Option Nat
  | [], _ => none
  | hay@(_ :: t), i => if needle.isPrefixOf hay then some i else indexOfAux needle t (i + 1)

/-- JS `hay.indexOf(needle, start)` (`none` for `-1`). -/
def indexOfFrom (needle hay : List Char) (start : Nat) : Option Nat :=
  if needle = [] then some (min start hay.length)
  else (indexOfAux needle (hay.drop start) 0).map (· + start)

/-- Count of non-overlapping occurrences, JS
`(s.match(new RegExp(escapeRegExp(needle), 'g')) || []).length`. -/
def countNonOverlap (needle : List Char) (hay : List Char) : Nat :=
  if needle = [] then hay.length + 1 else go (hay.length + 1) hay
where
  go : Nat → List Char → Nat
    | 0, _ => 0
    | _, [] => 0
    | fuel + 1, hay@(_ :: t) =>
      if needle.isPrefixOf hay then 1 + go fuel (hay.drop needle.length)
      else go fuel t

/-- The occurrence-search loop of `getDocumentPosition`: find the index of the
`target`-th occurrence of `needle` in `hay`, stepping one character past each
found occurrence (occurrences counted possibly overlapping), with the loop
guard `currentIndex < documentText.length`. -/
def nthOverlapAux (needle hay : List Char) (target : Nat) : Nat → Nat → Nat → Option Nat
  | 0, _, _ => none
  | fuel + 1, cur, cnt =>
    if cur < hay.length then
      match indexOfFrom needle hay cur with
      | none => none
      | some f => if cnt = target then some f else nthOverlapAux needle hay target fuel (f + 1) (cnt + 1)
    else none

/-- Find the `target`-th (0-based) occurrence of `needle` in `hay` as the
document-side search loop of `getDocumentPosition` does. -/
def nthOverlap (needle hay : List Char) (target : Nat) : Option Nat :=
  nthOverlapAux needle hay target (hay.length + 1) 0 0

/-- A `(line, character)` document position, `vscode.Position`. -/
structure Pos where
  line : Nat
  character : Nat
deriving Repr, DecidableEq

/-- An offset range in clean text (`{start, end}` in the source; `end` is a
Lean keyword, rendered here as `stop`). -/
structure ExRange where
  start : Nat
  stop : Nat
deriving Repr, DecidableEq

/-- The `CommentBlock` interface of the provider. -/
structure CommentBlock where
  text : List Char
  startLine : Nat
  endLine : Nat
  startChar : Nat
  endChar : Nat
  originalLines : List (List Char) := []
  cleanedLines : List (List Char) := []
deriving Repr, DecidableEq

/-- One decoration handed to the host: a document range plus the optional
`before.contentText` payload (style attributes carry no information the claims
depend on and are omitted). -/
structure OverlayInstruction where
  start : Pos
  stop : Pos
  content : Option (List Char) := none
deriving Repr, DecidableEq

/-- `document.getText(new vscode.Range(a, 0, b, 0))`: the text from the start
of line `a` to the start of line `b`, the latter clamped to the end of the
document as VS Code does. -/
def getTextRange (docLines : List (List Char)) (a b : Nat) : List Char :=
  let body := joinNl ((docLines.drop a).take (b - a))
  if b < docLines.length then body ++ ['\n'] else body

/-- `getDocumentPosition`: map a clean-text offset range back to a document
span by occurrence-counted substring search, or return `none` ("not found"). -/
def getDocumentPosition (matchStart matchEnd : Nat) (comment : CommentBlock)
    (docLines : List (List Char)) (commentText : List Char) :
    Option (Pos × Pos) :=
  let searchText := (commentText.drop matchStart).take (matchEnd - matchStart)
  let documentText := getTextRange docLines comment.startLine (comment.endLine + 1)
  let occurrenceInComment := countNonOverlap searchText (commentText.take matchStart)
  match nthOverlap searchText documentText occurrenceInComment with
  | none => none
  | some searchIndex =>
    let beforeLines := splitOnNl (documentText.take searchIndex)
    let startPos : Pos :=
      ⟨comment.startLine + beforeLines.length - 1, (beforeLines.getLast?.getD []).length⟩
    let endLines := splitOnNl (documentText.take (searchIndex + searchText.length))
    let endPos : Pos :=
      ⟨comment.startLine + endLines.length - 1, (endLines.getLast?.getD []).length⟩
    some (startPos, endPos)

/-- One regex match: `match.index`, the end offset, the main capture group
(`content`), a secondary capture (link url / task check state / list number)
and the length of the captured indentation for line-anchored patterns. -/
structure MatchSpan where
  start : Nat
  stop : Nat
  content : List Char := []
  content2 : List Char := []
  indentLen : Nat := 0
deriving Repr, DecidableEq

/-- Generic `g`-flag scan: try `matchAt` at every position (tracking the
previous character for lookbehinds and `^` anchors), resume after the end of
each match as `lastIndex` does. `matchAt prev s` returns the match length and
the `MatchSpan` payload fields relative to the current position. -/
def scanAll (matchAt : Option Char → List Char → Option (Nat × List Char × List Char × Nat)) :
    Nat → Option Char → List Char → Nat → List MatchSpan
  | 0, _, _, _ => []
  | fuel + 1, prev, s, pos =>
    match matchAt prev s with
    | some (len, content, content2, indentLen) =>
      let len' := max len 1
      let prev' := ((s.take len').getLast?).orElse (fun _ => prev)
      ⟨pos, pos + len, content, content2, indentLen⟩ ::
        scanAll matchAt fuel prev' (s.drop len') (pos + len')
    | none =>
      match s with
      | [] => []
      | c :: t => scanAll matchAt fuel (some c) t (pos + 1)

/-- Run a scan over a whole text. -/
def findAll (matchAt : Option Char → List Char → Option (Nat × List Char × List Char × Nat))
    (text : List Char) : List MatchSpan :=
  scanAll matchAt (text.length + 1) none text 0

/-- Lazy closing-delimiter search for `(X*?)delim` contents: the shortest
prefix of characters satisfying `ok` that is followed by `delim`. -/
def lazyClose (delim : List Char) (ok : Char → Bool) : List Char → Option (List Char)
  | [] => none
  | s@(c :: t) =>
    if delim.isPrefixOf s then some []
    else if ok c then (lazyClose delim ok t).map (c :: ·)
    else none

/-- `/\*\*(.*?)\*\*/g` — bold. -/
def boldMatchAt : Option Char → List Char → Option (Nat × List Char × List Char × Nat)
  | _, '*' :: '*' :: rest =>
    (lazyClose (strToL "**") isDot rest).map fun content =>
      (content.length + 4, content, [], 0)
  | _, _ => none

/-- `/~~(.*?)~~/g` — strikethrough. -/
def strikeMatchAt : Option Char → List Char → Option (Nat × List Char × List Char × Nat)
  | _, '~' :: '~' :: rest =>
    (lazyClose (strToL "~~") isDot rest).map fun content =>
      (content.length + 4, content, [], 0)
  | _, _ => none

/-- Lazy content scan for italic: at least one `ok` character, then a `*` not
followed by another `*` (content class cannot absorb `*`, so a `**` inside
aborts the whole attempt). -/
def italicClose (ok : Char → Bool) : List Char → Option (List Char)
  | [] => none
  | c :: t =>
    if ok c then
      match t with
      | '*' :: u => if u.head? = some '*' then none else some [c]
      | _ => (italicClose ok t).map (c :: ·)
    else none

/-- `/(?<!\*)\*([^*]+?)\*(?!\*)/g` — italic as used in multi-line comments
(content may span lines). -/
def italicMultiMatchAt : Option Char → List Char → Option (Nat × List Char × List Char × Nat)
  | prev, '*' :: rest =>
    if prev = some '*' then none
    else (italicClose (fun c => !(c = '*')) rest).map fun content =>
      (content.length + 2, content, [], 0)
  | _, _ => none

/-- `/(?<!\*)\*([^*\n]+?)\*(?!\*)/g` — italic as used in single-line comments
and markdown files (content confined to one line). -/
def italicSingleMatchAt : Option Char → List Char → Option (Nat × List Char × List Char × Nat)
  | prev, '*' :: rest =>
    if prev = some '*' then none
    else (italicClose (fun c => !(c = '*') && !(c = '\n')) rest).map fun content =>
      (content.length + 2, content, [], 0)
  | _, _ => none

/-- `` /(?<!`)`([^`\n]+)`(?!`)/g `` — inline code. -/
def codeMatchAt : Option Char → List Char → Option (Nat × List Char × List Char × Nat)
  | prev, '`' :: rest =>
    if prev = some '`' then none
    else
      let content := rest.takeWhile (fun c => !(c = '`') && !(c = '\n'))
      if content = [] then none
      else
        match rest.drop content.length with
        | '`' :: u => if u.head? = some '`' then none else some (content.length + 2, content, [], 0)
        | _ => none
  | _, _ => none

/-- `/\[([^\]\n]+)\]\(([^)\n]+)\)/g` — links. -/
def linkMatchAt : Option Char → List Char → Option (Nat × List Char × List Char × Nat)
  | _, '[' :: rest =>
    let txt := rest.takeWhile (fun c => !(c = ']') && !(c = '\n'))
    if txt = [] then none
    else
      match rest.drop txt.length with
      | ']' :: '(' :: rest2 =>
        let url := rest2.takeWhile (fun c => !(c = ')') && !(c = '\n'))
        if url = [] then none
        else
          match rest2.drop url.length with
          | ')' :: _ => some (txt.length + url.length + 4, txt, url, 0)
          | _ => none
      | _ => none
  | _, _ => none

/-- `/!\[([^\]\n]+)\]\(([^)\n]+)\)/g` — images. -/
def imageMatchAt : Option Char → List Char → Option (Nat × List Char × List Char × Nat)
  | prev, '!' :: rest =>
    (linkMatchAt prev rest).map fun (len, txt, url, _) => (len + 1, txt, url, 0)
  | _, _ => none

/-- Is this position a multiline `^` anchor site? -/
def atLineStart (prev : Option Char) : Bool :=
  match prev with
  | none => true
  | some c => isLineTerm c

/-- Multiline `$`: end of input or before a line terminator. -/
def atLineEnd (s : List Char) : Bool :=
  match s.head? with
  | none => true
  | some c => isLineTerm c

/-- `/^(\s*)-\s+\[([ xX])\]\s+(.*)$/gm` — task list items. The greedy `\s`
runs may cross newlines, exactly as in JS. -/
def taskMatchAt : Option Char → List Char → Option (Nat × List Char × List Char × Nat)
  | prev, s =>
    if !(atLineStart prev) then none
    else
      let indent := s.takeWhile isJsWs
      match s.drop indent.length with
      | '-' :: r1 =>
        let ws1 := r1.takeWhile isJsWs
        if ws1 = [] then none
        else
          match r1.drop ws1.length with
          | '[' :: st :: ']' :: r2 =>
            if st = ' ' || st = 'x' || st = 'X' then
              let ws2 := r2.takeWhile isJsWs
              if ws2 = [] then none
              else
                let content := (r2.drop ws2.length).takeWhile isDot
                some (indent.length + 1 + ws1.length + 3 + ws2.length + content.length,
                      content, [st], indent.length)
            else none
          | _ => none
      | _ => none

/-- `/^([ \t]*)(?:-|\*(?!\*))\s+(.*)$/gm` — bullet list items. -/
def bulletMatchAt : Option Char → List Char → Option (Nat × List Char × List Char × Nat)
  | prev, s =>
    if !(atLineStart prev) then none
    else
      let indent := s.takeWhile (fun c => c = ' ' || c = '\t')
      let afterIndent := s.drop indent.length
      let marker? : Bool :=
        match afterIndent with
        | '-' :: _ => true
        | '*' :: u => !(u.head? = some '*')
        | _ => false
      if !marker? then none
      else
        let r1 := afterIndent.drop 1
        let ws := r1.takeWhile isJsWs
        if ws = [] then none
        else
          let content := (r1.drop ws.length).takeWhile isDot
          some (indent.length + 1 + ws.length + content.length, content, [], indent.length)

/-- `/^([ \t]*)(\d+)\.\s+(.*)$/gm` — numbered list items (`content2` holds the
digits). -/
def numberedMatchAt : Option Char → List Char → Option (Nat × List Char × List Char × Nat)
  | prev, s =>
    if !(atLineStart prev) then none
    else
      let indent := s.takeWhile (fun c => c = ' ' || c = '\t')
      let afterIndent := s.drop indent.length
      let digits := afterIndent.takeWhile isDigitCh
      if digits = [] then none
      else
        match afterIndent.drop digits.length with
        | '.' :: r1 =>
          let ws := r1.takeWhile isJsWs
          if ws = [] then none
          else
            let content := (r1.drop ws.length).takeWhile isDot
            some (indent.length + digits.length + 1 + ws.length + content.length,
                  content, digits, indent.length)
        | _ => none

/-- `/^#{level}(?!#)? (.*$)/gm` — one header level. Levels 1 and 2 carry the
negative lookahead in the source; levels 3–7 do not (the mandatory space after
the markers separates them anyway). -/
def headerMatchAt (level : Nat) (negLookahead : Bool) :
    Option Char → List Char → Option (Nat × List Char × List Char × Nat)
  | prev, s =>
    if !(atLineStart prev) then none
    else
      let hashes := s.takeWhile (fun c => c = '#')
      if hashes.length < level then none
      else if negLookahead && hashes.length ≠ level then none
      else
        match s.drop level with
        | ' ' :: r1 =>
          let content := r1.takeWhile isDot
          some (level + 1 + content.length, content, [], 0)
        | _ => none

/-- ``/^```(\w*)$/gm`` — a code-fence delimiter line (`content` is the
language tag). -/
def fenceMatchAt : Option Char → List Char → Option (Nat × List Char × List Char × Nat)
  | prev, s =>
    if !(atLineStart prev) then none
    else
      match s with
      | '`' :: '`' :: '`' :: rest =>
        let lang := rest.takeWhile isWordChar
        if atLineEnd (rest.drop lang.length) then some (3 + lang.length, lang, [], 0)
        else none
      | _ => none

/-- `/<!--[\s\S]*?-->/g` — HTML comment regions (markdown-file mode). -/
def htmlCommentMatchAt : Option Char → List Char → Option (Nat × List Char × List Char × Nat)
  | _, '<' :: '!' :: '-' :: '-' :: rest =>
    (lazyClose (strToL "-->") (fun _ => true) rest).map fun content =>
      (content.length + 7, content, [], 0)
  | _, _ => none

/-- All bold matches of a text. -/
def boldFindAll (text : List Char) : List MatchSpan := findAll boldMatchAt text

/-- All multi-line-comment italic matches of a text. -/
def italicMultiFindAll (text : List Char) : List MatchSpan := findAll italicMultiMatchAt text

/-- All single-line/markdown italic matches of a text. -/
def italicSingleFindAll (text : List Char) : List MatchSpan := findAll italicSingleMatchAt text

/-- All inline-code matches of a text. -/
def codeFindAll (text : List Char) : List MatchSpan := findAll codeMatchAt text

/-- All strikethrough matches of a text. -/
def strikeFindAll (text : List Char) : List MatchSpan := findAll strikeMatchAt text

/-- All link matches of a text. -/
def linkFindAll (text : List Char) : List MatchSpan := findAll linkMatchAt text

/-- All image matches of a text. -/
def imageFindAll (text : List Char) : List MatchSpan := findAll imageMatchAt text

/-- All task-list matches of a text. -/
def taskFindAll (text : List Char) : List MatchSpan := findAll taskMatchAt text

/-- All bullet-list matches of a text. -/
def bulletFindAll (text : List Char) : List MatchSpan := findAll bulletMatchAt text

/-- All numbered-list matches of a text. -/
def numberedFindAll (text : List Char) : List MatchSpan := findAll numberedMatchAt text

/-- All matches for one header level, with the lookahead configuration of
`parseHeadersWithNestedFormatting`. -/
def headerFindAll (level : Nat) (text : List Char) : List MatchSpan :=
  findAll (headerMatchAt level (level = 1 || level = 2)) text

/-- All code-fence delimiter-line matches of a text. -/
def fenceFindAll (text : List Char) : List MatchSpan := findAll fenceMatchAt text

/-- The HTML comment exclusion ranges collected by `parseMarkdownFile`. -/
def htmlCommentRangesOf (text : List Char) : List ExRange :=
  (findAll htmlCommentMatchAt text).map fun m => ⟨m.start, m.stop⟩

/-- `getCodeBlockRanges`: character ranges of fenced-code bodies (content only,
delimiter lines excluded), via the line scan of the source. -/
def getCodeBlockRanges (text : List Char) : List ExRange :=
  go (splitOnNl text) false 0 0
where
  go : List (List Char) → Bool → Nat → Nat → List ExRange
    | [], _, _, _ => []
    | line :: rest, inCodeBlock, blockStart, currentPos =>
      if (strToL "```").isPrefixOf line then
        if !inCodeBlock then
          go rest true (currentPos + line.length + 1) (currentPos + line.length + 1)
        else
          ⟨blockStart, currentPos⟩ :: go rest false blockStart (currentPos + line.length + 1)
      else go rest inCodeBlock blockStart (currentPos + line.length + 1)

/-- `line.replace(/^\s*\*\s/, '')`: strip one leading decorative asterisk plus
one following whitespace character (after optional indentation); a leading
`**` does not match the pattern, so the line is returned unchanged. Used for
the interior lines of a multi-line comment in `extractMultiLineComment`. -/
def cleanInteriorLine (line : List Char) : List Char :=
  let ws := line.takeWhile isJsWs
  match line.drop ws.length with
  | '*' :: c :: rest => if isJsWs c then rest else line
  | _ => line

/-- `line.replace(/^(\s*)\/\*+\s*/, '')`: strip the opening block-comment
marker from the first line. -/
def stripOpenMarker (line : List Char) : List Char :=
  let ws := line.takeWhile isJsWs
  match line.drop ws.length with
  | '/' :: rest =>
    let stars := rest.takeWhile (fun c => c = '*')
    if stars = [] then line
    else
      let afterStars := rest.drop stars.length
      afterStars.drop (afterStars.takeWhile isJsWs).length
  | _ => line

/-- The language-specific single-line comment patterns. -/
inductive SLPat
  | slashSlash
  | hash
deriving Repr, DecidableEq

/-- The language-specific block-comment start patterns. -/
inductive MLStartPat
  | slashStar
  | tripleQuote
deriving Repr, DecidableEq

/-- The language-specific block-comment end patterns. -/
inductive MLEndPat
  | starSlash
  | tripleQuote
deriving Repr, DecidableEq

/-- The `CommentPatterns` interface. -/
structure CommentPatterns where
  singleLine : List SLPat
  multiLineStart : List MLStartPat
  multiLineEnd : List MLEndPat

/-- `getCommentPatterns`. -/
def getCommentPatterns (languageId : String) : CommentPatterns :=
  if languageId = "javascript" || languageId = "typescript" || languageId = "java" ||
     languageId = "csharp" || languageId = "cpp" || languageId = "c" ||
     languageId = "go" || languageId = "rust" || languageId = "php" then
    ⟨[.slashSlash], [.slashStar], [.starSlash]⟩
  else if languageId = "python" then ⟨[.hash], [.tripleQuote], [.tripleQuote]⟩
  else if languageId = "markdown" then ⟨[], [], []⟩
  else ⟨[.slashSlash, .hash], [.slashStar], [.starSlash]⟩

/-- `line.match(/\/\/\s*(.*)$/)` (resp. `#`): find the leftmost marker
occurrence whose suffix decomposes as whitespace then terminator-free text
(the `$` has no `m` flag, so a line terminator inside the suffix defeats the
match there and the engine retries at the next marker); returns
(match index, capture group 1). -/
def slPatMatchFrom (marker : List Char) (line : List Char) : Nat → Nat → Option (Nat × List Char)
  | 0, _ => none
  | fuel + 1, from_ =>
    match indexOfFrom marker line from_ with
    | none => none
    | some i =>
      let after := line.drop (i + marker.length)
      let ws := after.takeWhile isJsWs
      let content := after.drop ws.length
      if content.all isDot then some (i, content)
      else slPatMatchFrom marker line fuel (i + 1)

/-- Apply one single-line pattern to a line. -/
def slPatMatch : SLPat → List Char → Option (Nat × List Char)
  | .slashSlash, line => slPatMatchFrom (strToL "//") line (line.length + 1) 0
  | .hash, line => slPatMatchFrom (strToL "#") line (line.length + 1) 0

/-- Try the language's single-line patterns in order (the `break` in the
source loop keeps only the first match). -/
def firstSlMatch : List SLPat → List Char → Option (Nat × List Char)
  | [], _ => none
  | p :: ps, line =>
    match slPatMatch p line with
    | some r => some r
    | none => firstSlMatch ps line

/-- `/^\s*\/\*/.test(line)` (resp. the Python triple-quote form). -/
def mlStartTest (p : MLStartPat) (line : List Char) : Bool :=
  let rest := line.drop (line.takeWhile isJsWs).length
  match p with
  | .slashStar => (strToL "/*").isPrefixOf rest
  | .tripleQuote => (strToL "\"\"\"").isPrefixOf rest

/-- `line.match(endPattern)` index: first occurrence of the end marker. -/
def mlEndIdx (p : MLEndPat) (line : List Char) : Option Nat :=
  match p with
  | .starSlash => indexOfFrom (strToL "*/") line 0
  | .tripleQuote => indexOfFrom (strToL "\"\"\"") line 0

/-- The scan of `extractMultiLineComment` over the lines after the start line:
returns (original lines consumed, cleaned lines, offset of the end-marker line
within the consumed suffix if one was found). Lines before the end marker are
cleaned with `cleanInteriorLine`; on the end-marker line only the text before
the marker is kept (then cleaned the same way). -/
def mlcAux (endPat : MLEndPat) : List (List Char) → List (List Char) × List (List Char) × Option Nat
  | [] => ([], [], none)
  | l :: ls =>
    match mlEndIdx endPat l with
    | some idx => ([l], [cleanInteriorLine (l.take idx)], some 0)
    | none =>
      let (o, c, e) := mlcAux endPat ls
      (l :: o, cleanInteriorLine l :: c, e.map (· + 1))

/-- `extractMultiLineComment`: consume lines from the start marker until the
end marker (or end of file); note that `endLine` is only assigned when an end
marker is found, so an unterminated comment keeps `endLine = startLine`. -/
def extractMultiLineComment (lines : List (List Char)) (startLine : Nat)
    (endPat : MLEndPat) : CommentBlock :=
  let firstLine := (lines.drop startLine).headD []
  let cleaned0 := stripOpenMarker firstLine
  let cleaned0k := if trimJs cleaned0 = [] then [] else cleaned0
  let (origRest, cleanRest, endOff) := mlcAux endPat (lines.drop (startLine + 1))
  let endLine := match endOff with
    | some k => startLine + 1 + k
    | none => startLine
  { text := trimJs (joinNl (cleaned0k :: cleanRest))
    startLine := startLine
    endLine := endLine
    startChar := 0
    endChar := ((lines.drop endLine).headD []).length
    originalLines := firstLine :: origRest
    cleanedLines := cleaned0k :: cleanRest }

/-- The line loop of `extractComments`: single-line blocks are pushed first,
then a block comment starting on the same line; after a block comment the
index jumps to its `endLine` before the `i++`. -/
def extractCommentsAux (lines : List (List Char)) (patterns : CommentPatterns) :
    Nat → Nat → List CommentBlock
  | 0, _ => []
  | fuel + 1, i =>
    if i < lines.length then
      let line := (lines.drop i).headD []
      let single : List CommentBlock :=
        match firstSlMatch patterns.singleLine line with
        | some (_, content) =>
          [{ text := content, startLine := i, endLine := i,
             startChar := line.length - content.length, endChar := line.length }]
        | none => []
      let multiStep : List CommentBlock × Nat :=
        if patterns.multiLineStart.any (fun p => mlStartTest p line) then
          let b := extractMultiLineComment lines i (patterns.multiLineEnd.headD .starSlash)
          ([b], b.endLine)
        else ([], i)
      single ++ multiStep.1 ++ extractCommentsAux lines patterns fuel (multiStep.2 + 1)
    else []

/-- `extractComments`: split the document into lines and collect all comment
blocks for the language. -/
def extractComments (text : List Char) (languageId : String) : List CommentBlock :=
  let lines := splitOnNl text
  extractCommentsAux lines (getCommentPatterns languageId) (lines.length + 1) 0

/-- The skip test of `parseAndReplace`, `parseLinks` and `parseImages`:
`fullStart >= range.start && fullEnd <= range.end` for some exclusion range
(the match lies entirely within the range). -/
def containedInAny (m : MatchSpan) (zones : List ExRange) : Bool :=
  zones.any fun r => decide (r.start ≤ m.start) && decide (m.stop ≤ r.stop)

/-- The skip test of `parseTaskLists` and `parseLists`:
`matchStart >= range.start && matchStart < range.end` for some exclusion range
(only the match start offset is examined). -/
def startInAny (m : MatchSpan) (zones : List ExRange) : Bool :=
  zones.any fun r => decide (r.start ≤ m.start) && decide (m.start < r.stop)

/-- Matches surviving the containment skip (inline formatting, links, images). -/
def skipContained (ms : List MatchSpan) (zones : List ExRange) : List MatchSpan :=
  ms.filter fun m => !(containedInAny m zones)

/-- Matches surviving the start-offset skip (task and list passes). -/
def skipStartIn (ms : List MatchSpan) (zones : List ExRange) : List MatchSpan :=
  ms.filter fun m => !(startInAny m zones)

/-- `/^\[([ xX])\]/.test(content)`: a bullet whose content opens with a task
checkbox is skipped by `parseLists`. -/
def taskLikeContent (content : List Char) : Bool :=
  match content with
  | '[' :: c :: ']' :: _ => c = ' ' || c = 'x' || c = 'X'
  | _ => false

/-- The content-based skips of the bullet branch of `parseLists`: task-like
content, and empty/whitespace-only content (decorative asterisk lines). -/
def bulletContentKeep (m : MatchSpan) : Bool :=
  !(taskLikeContent m.content) && !(trimJs m.content = [])

/-! ### Registered matches per pass, as wired by `parseMultiLineComment`
(code-fence ranges go to the inline, link and image passes; the task, list and
header passes receive none). -/

/-- Bold matches registered for a multi-line comment. -/
def mlBoldRegistered (text : List Char) : List MatchSpan :=
  skipContained (boldFindAll text) (getCodeBlockRanges text)

/-- Italic matches registered for a multi-line comment. -/
def mlItalicRegistered (text : List Char) : List MatchSpan :=
  skipContained (italicMultiFindAll text) (getCodeBlockRanges text)

/-- Inline-code matches registered for a multi-line comment. -/
def mlCodeRegistered (text : List Char) : List MatchSpan :=
  skipContained (codeFindAll text) (getCodeBlockRanges text)

/-- Strikethrough matches registered for a multi-line comment. -/
def mlStrikeRegistered (text : List Char) : List MatchSpan :=
  skipContained (strikeFindAll text) (getCodeBlockRanges text)

/-- Link matches registered for a multi-line comment. -/
def mlLinkRegistered (text : List Char) : List MatchSpan :=
  skipContained (linkFindAll text) (getCodeBlockRanges text)

/-- Image matches registered for a multi-line comment. -/
def mlImageRegistered (text : List Char) : List MatchSpan :=
  skipContained (imageFindAll text) (getCodeBlockRanges text)

/-- Task matches registered for a multi-line comment: `parseTaskLists` is
called without exclusion ranges there, so the skip list is empty. -/
def mlTaskRegistered (text : List Char) : List MatchSpan :=
  skipStartIn (taskFindAll text) []

/-- Bullet matches registered for a multi-line comment (no exclusion ranges;
task-like and empty contents skipped). -/
def mlBulletRegistered (text : List Char) : List MatchSpan :=
  (skipStartIn (bulletFindAll text) []).filter bulletContentKeep

/-- Numbered-list matches registered for a multi-line comment (no exclusion
ranges). -/
def mlNumberedRegistered (text : List Char) : List MatchSpan :=
  skipStartIn (numberedFindAll text) []

/-- Header matches registered for a multi-line comment: the header passes
never receive exclusion ranges. -/
def mlHeaderRegistered (level : Nat) (text : List Char) : List MatchSpan :=
  headerFindAll level text

/-! ### Registered matches per pass in markdown-file mode
(`parseMarkdownFile`): HTML comment ranges and code-fence ranges are combined
and passed to the inline, link, image, task and list passes; headers still
receive none. -/

/-- The combined exclusion ranges of `parseMarkdownFile`. -/
def mdExclusionRanges (text : List Char) : List ExRange :=
  htmlCommentRangesOf text ++ getCodeBlockRanges text

/-- Bold matches registered for a markdown file. -/
def mdBoldRegistered (text : List Char) : List MatchSpan :=
  skipContained (boldFindAll text) (mdExclusionRanges text)

/-- Italic matches registered for a markdown file (single-line italic class). -/
def mdItalicRegistered (text : List Char) : List MatchSpan :=
  skipContained (italicSingleFindAll text) (mdExclusionRanges text)

/-- Inline-code matches registered for a markdown file. -/
def mdCodeRegistered (text : List Char) : List MatchSpan :=
  skipContained (codeFindAll text) (mdExclusionRanges text)

/-- Strikethrough matches registered for a markdown file. -/
def mdStrikeRegistered (text : List Char) : List MatchSpan :=
  skipContained (strikeFindAll text) (mdExclusionRanges text)

/-- Link matches registered for a markdown file. -/
def mdLinkRegistered (text : List Char) : List MatchSpan :=
  skipContained (linkFindAll text) (mdExclusionRanges text)

/-- Image matches registered for a markdown file. -/
def mdImageRegistered (text : List Char) : List MatchSpan :=
  skipContained (imageFindAll text) (mdExclusionRanges text)

/-- Task matches registered for a markdown file. -/
def mdTaskRegistered (text : List Char) : List MatchSpan :=
  skipStartIn (taskFindAll text) (mdExclusionRanges text)

/-- Bullet matches registered for a markdown file. -/
def mdBulletRegistered (text : List Char) : List MatchSpan :=
  (skipStartIn (bulletFindAll text) (mdExclusionRanges text)).filter bulletContentKeep

/-- Numbered-list matches registered for a markdown file. -/
def mdNumberedRegistered (text : List Char) : List MatchSpan :=
  skipStartIn (numberedFindAll text) (mdExclusionRanges text)

/-- Header matches registered for a markdown file (no exclusion ranges). -/
def mdHeaderRegistered (level : Nat) (text : List Char) : List MatchSpan :=
  headerFindAll level text

/-- The kinds of markdown constructs a pass can produce. -/
inductive MKind
  | bold
  | italic
  | code
  | strikethrough
  | link
  | image
  | task
  | bullet
  | numbered
  | header (level : Nat)
  | fence
deriving Repr, DecidableEq

/-- A pass-tagged match. -/
structure TaggedMatch where
  kind : MKind
  start : Nat
  stop : Nat
  content : List Char
deriving Repr, DecidableEq

/-- Tag a list of matches with their pass kind. -/
def tagAll (k : MKind) (ms : List MatchSpan) : List TaggedMatch :=
  ms.map fun m => ⟨k, m.start, m.stop, m.content⟩

/-- All matches registered by `parseSingleLineComment`: links first, then
bold, italic, inline code and strikethrough, each with an empty exclusion
list; headers, lists, task items and code fences are never attempted. -/
def singleLineMatches (text : List Char) : List TaggedMatch :=
  tagAll .link (skipContained (linkFindAll text) []) ++
  tagAll .bold (skipContained (boldFindAll text) []) ++
  tagAll .italic (skipContained (italicSingleFindAll text) []) ++
  tagAll .code (skipContained (codeFindAll text) []) ++
  tagAll .strikethrough (skipContained (strikeFindAll text) [])

/-- All matches registered by `parseMultiLineComment`, in pass order. -/
def multiLineMatches (text : List Char) : List TaggedMatch :=
  tagAll .fence (fenceFindAll text) ++
  tagAll .bold (mlBoldRegistered text) ++
  tagAll .italic (mlItalicRegistered text) ++
  tagAll .code (mlCodeRegistered text) ++
  tagAll .strikethrough (mlStrikeRegistered text) ++
  tagAll .link (mlLinkRegistered text) ++
  tagAll .image (mlImageRegistered text) ++
  tagAll .task (mlTaskRegistered text) ++
  tagAll .bullet (mlBulletRegistered text) ++
  tagAll .numbered (mlNumberedRegistered text) ++
  (tagAll (.header 7) (mlHeaderRegistered 7 text) ++
   tagAll (.header 6) (mlHeaderRegistered 6 text) ++
   tagAll (.header 5) (mlHeaderRegistered 5 text) ++
   tagAll (.header 4) (mlHeaderRegistered 4 text) ++
   tagAll (.header 3) (mlHeaderRegistered 3 text) ++
   tagAll (.header 2) (mlHeaderRegistered 2 text) ++
   tagAll (.header 1) (mlHeaderRegistered 1 text))

/-- `parseMarkdownInComment`: a block whose `startLine` equals its `endLine`
is parsed in single-line mode, all other blocks in multi-line mode. -/
def commentMatches (c : CommentBlock) : List TaggedMatch :=
  if c.startLine = c.endLine then singleLineMatches c.text
  else multiLineMatches c.text

/-- The per-match body of `parseAndReplace`: skip the match if it lies inside
an exclusion range; skip it silently if the position mapper fails; skip it on
the active line; otherwise emit the hide instruction over the full span and
the styled replacement anchored at its start. -/
def parseAndReplaceOne (decorationType : String) (zones : List ExRange)
    (comment : CommentBlock) (docLines : List (List Char)) (activeLine : Int)
    (text : List Char) (m : MatchSpan) : List (String × OverlayInstruction) :=
  if containedInAny m zones then []
  else
    match getDocumentPosition m.start m.stop comment docLines text with
    | none => []
    | some (ps, pe) =>
      if (ps.line : Int) = activeLine || (pe.line : Int) = activeLine then []
      else
        [("replace", ⟨ps, pe, none⟩), (decorationType, ⟨ps, ps, some m.content⟩)]

/-- The match loop of `parseAndReplace` over a list of regex matches. -/
def parseAndReplaceEmit (decorationType : String) (zones : List ExRange)
    (comment : CommentBlock) (docLines : List (List Char)) (activeLine : Int)
    (text : List Char) (ms : List MatchSpan) : List (String × OverlayInstruction) :=
  ms.flatMap (parseAndReplaceOne decorationType zones comment docLines activeLine text)

/-- `'─'.repeat(n)` etc. -/
def charRepeat (c : Char) (n : Nat) : List Char :=
  List.replicate n c

/-- The horizontal-rule text built by `replaceCodeBlockDelimiters`: an
80-column rule with the language tag (when present) centered inside it. -/
def fenceRuleText (language : List Char) : List Char :=
  let label := if language = [] then [] else ' ' :: (language ++ [' '])
  let lineLength := 80 - label.length
  let halfLine := lineLength / 2
  charRepeat '─' halfLine ++ label ++ charRepeat '─' (lineLength - halfLine)

/-- `replaceCodeBlockDelimiters`: every fence delimiter line is located in the
document, its characters hidden, and a horizontal-rule decoration carrying the
language tag is anchored at its start. -/
def replaceCodeBlockDelimiters (text : List Char) (comment : CommentBlock)
    (docLines : List (List Char)) (activeLine : Int) : List (String × OverlayInstruction) :=
  (fenceFindAll text).flatMap fun m =>
    match getDocumentPosition m.start m.stop comment docLines text with
    | none => []
    | some (ps, pe) =>
      if (ps.line : Int) = activeLine then []
      else
        [("replace", ⟨ps, pe, none⟩), ("bold", ⟨ps, ps, some (fenceRuleText m.content)⟩)]

/-- The active-block search of `updateDecorations` (first block containing the
cursor line, only consulted for non-markdown files). -/
def findActiveBlock (blocks : List CommentBlock) (activeLine : Nat) : Option CommentBlock :=
  blocks.find? fun b => decide (b.startLine ≤ activeLine) && decide (activeLine ≤ b.endLine)

/-- The filtering step of `updateDecorations`: with an active comment block
(code files only), drop every instruction whose start line falls inside the
block; otherwise drop exactly the instructions on the active line. -/
def filterDecorations (decs : List (String × OverlayInstruction))
    (blocks : List CommentBlock) (activeLine : Nat) (isMarkdownFile : Bool) :
    List (String × OverlayInstruction) :=
  let activeBlock := if isMarkdownFile then none else findActiveBlock blocks activeLine
  decs.filter fun d =>
    match activeBlock with
    | some b => decide (d.2.start.line < b.startLine) || decide (b.endLine < d.2.start.line)
    | none => decide (¬(d.2.start.line = activeLine))

/-- The provider's externally visible state: the enabled flag and the
decorations currently applied per style category in the visible editors. -/
structure ProviderState where
  isEnabled : Bool
  applied : String → List OverlayInstruction

/-- `clearAllDecorations`: every decoration type is set to the empty list. -/
def clearAllDecorations (s : ProviderState) : ProviderState :=
  { s with applied := fun _ => [] }

/-- `updateDecorations`, abstracted over the computed (filtered) decoration
sets: it returns immediately when the provider is disabled, otherwise applies
the computed sets. -/
def updateDecorations (s : ProviderState) (computed : String → List OverlayInstruction) :
    ProviderState :=
  if s.isEnabled then { s with applied := computed } else s

/-- `toggle`: flip the flag; when now enabled re-apply decorations, when now
disabled clear every decoration type. -/
def toggle (s : ProviderState) (computed : String → List OverlayInstruction) :
    ProviderState :=
  let s1 : ProviderState := { s with isEnabled := !s.isEnabled }
  if s1.isEnabled then updateDecorations s1 computed else clearAllDecorations s1

/-- The characters of a clean-text offset range `[a, b)`. -/
def slice (text : List Char) (a b : Nat) : List Char :=
  (text.drop a).take (b - a)

/-- The character immediately before a scan position (what the regex
lookbehinds examine). -/
def prevOf (text : List Char) (pos : Nat) : Option Char :=
  if pos = 0 then none else text[pos - 1]?

/-- The concrete document of the code-fence test scenario: a block comment
holding a fenced `js` code block whose body is literal bold syntax. -/
def c8File : List Char := strToL "/*\n```js\n**not bold**\n```\n*/"

/-- The comment block extracted from `c8File`. -/
def c8Block : CommentBlock :=
  (extractComments c8File "typescript").headD ⟨[], 0, 0, 0, 0, [], []⟩

/-! ## Helper lemmas -/

theorem mem_skipContained {ms zones} {m : MatchSpan} (h : m ∈ skipContained ms zones) :
    containedInAny m zones = false := by
  have h2 := (List.mem_filter.mp h).2
  simpa using h2

theorem mem_skipStartIn {ms zones} {m : MatchSpan} (h : m ∈ skipStartIn ms zones) :
    startInAny m zones = false := by
  have h2 := (List.mem_filter.mp h).2
  simpa using h2

theorem containedInAny_append {m : MatchSpan} {z1 z2 : List ExRange}
    (h : containedInAny m (z1 ++ z2) = false) :
    containedInAny m z1 = false ∧ containedInAny m z2 = false := by
  unfold containedInAny at *
  rw [List.any_append] at h
  exact Bool.or_eq_false_iff.mp h

theorem startInAny_append {m : MatchSpan} {z1 z2 : List ExRange}
    (h : startInAny m (z1 ++ z2) = false) :
    startInAny m z1 = false ∧ startInAny m z2 = false := by
  unfold startInAny at *
  rw [List.any_append] at h
  exact Bool.or_eq_false_iff.mp h

theorem containedInAny_eq_false_iff {m : MatchSpan} {zones : List ExRange} :
    containedInAny m zones = false ↔
      ∀ r ∈ zones, ¬(r.start ≤ m.start ∧ m.stop ≤ r.stop) := by
  simp [containedInAny, List.any_eq_false, not_and]

theorem startInAny_eq_false_iff {m : MatchSpan} {zones : List ExRange} :
    startInAny m zones = false ↔
      ∀ r ∈ zones, ¬(r.start ≤ m.start ∧ m.start < r.stop) := by
  simp [startInAny, List.any_eq_false, not_and]

theorem not_contained_of_startIn_false {m : MatchSpan} {zones : List ExRange}
    (h : startInAny m zones = false) (hne : m.start < m.stop) :
    ∀ r ∈ zones, ¬(r.start ≤ m.start ∧ m.stop ≤ r.stop) := by
  intro r hr hc
  exact (startInAny_eq_false_iff.mp h r hr) ⟨hc.1, lt_of_lt_of_le hne hc.2⟩

theorem foldl_updateDecorations_disabled (updates : List (String → List OverlayInstruction))
    (t : ProviderState) (h : t.isEnabled = false) :
    updates.foldl updateDecorations t = t := by
  induction updates with
  | nil => rfl
  | cons u us ih =>
    have : updateDecorations t u = t := by
      unfold updateDecorations
      rw [h]
      simp
    rw [List.foldl_cons, this, ih]

theorem takeWhile_all_append (p : Char → Bool) (l1 l2 : List Char)
    (h : l1.all p = true) :
    (l1 ++ l2).takeWhile p = l1 ++ l2.takeWhile p := by
  induction l1 with
  | nil => simp
  | cons c t ih =>
    simp only [List.all_cons, Bool.and_eq_true] at h
    simp [List.takeWhile_cons, h.1, ih h.2]

theorem mlcAux_no_end (p : MLEndPat) (ls : List (List Char))
    (h : ∀ l ∈ ls, mlEndIdx p l = none) :
    mlcAux p ls = (ls, ls.map cleanInteriorLine, none) := by
  induction ls with
  | nil => rfl
  | cons l t ih =>
    have hl : mlEndIdx p l = none := h l (List.mem_cons_self l t)
    have ht := ih (fun x hx => h x (List.mem_cons_of_mem l hx))
    simp [mlcAux, hl, ht]

theorem splitOnNl_ne_nil (t : List Char) : splitOnNl t ≠ [] := by
  cases t with
  | nil => simp [splitOnNl]
  | cons c t =>
    unfold splitOnNl
    by_cases hc : c = '\n'
    · simp [hc]
    · simp only [hc, if_false]
      cases splitOnNl t <;> simp

theorem nl_not_mem_splitOnNl (t : List Char) : ∀ l ∈ splitOnNl t, '\n' ∉ l := by
  induction t with
  | nil => intro l hl; simp [splitOnNl] at hl; simp [hl]
  | cons c t ih =>
    intro l hl
    unfold splitOnNl at hl
    by_cases hc : c = '\n'
    · simp only [hc, if_true, List.mem_cons] at hl
      rcases hl with rfl | hl
      · simp
      · exact ih l hl
    · simp only [hc, if_false] at hl
      rcases hS : splitOnNl t with _ | ⟨h0, r⟩
      · exact absurd hS (splitOnNl_ne_nil t)
      · rw [hS] at hl
        rcases List.mem_cons.mp hl with rfl | hl
        · intro hmem
          rcases List.mem_cons.mp hmem with rfl | hmem
          · exact hc rfl
          · exact ih h0 (hS ▸ List.mem_cons_self h0 r) hmem
        · exact ih l (hS ▸ List.mem_cons_of_mem h0 hl)

theorem joinNl_splitOnNl (t : List Char) : joinNl (splitOnNl t) = t := by
  induction t with
  | nil => rfl
  | cons c t ih =>
    unfold splitOnNl
    by_cases hc : c = '\n'
    · subst hc
      simp only [if_true]
      rcases hS : splitOnNl t with _ | ⟨h0, r⟩
      · exact absurd hS (splitOnNl_ne_nil t)
      · rw [← hS]
        show joinNl ([] :: splitOnNl t) = '\n' :: t
        rw [hS]
        show [] ++ '\n' :: joinNl (h0 :: r) = '\n' :: t
        rw [← hS, ih]
        rfl
    · simp only [hc, if_false]
      rcases hS : splitOnNl t with _ | ⟨h0, r⟩
      · exact absurd hS (splitOnNl_ne_nil t)
      · have hj : joinNl ((c :: h0) :: r) = c :: joinNl (h0 :: r) := by
          cases r <;> rfl
        rw [hj, ← hS, ih]

theorem slice_getElem (text : List Char) (a b : Nat) (cs : List Char)
    (h : slice text a b = cs) (j : Nat) (hj : j < cs.length) :
    text[a + j]? = cs[j]? := by
  have hlen : cs.length ≤ b - a := by
    rw [← h]
    simp [slice]
  rw [← h]
  simp only [slice]
  rw [List.getElem?_take, List.getElem?_drop]
  simp [lt_of_lt_of_le hj hlen]

theorem lazyClose_spec (delim : List Char) (ok : Char → Bool) :
    ∀ (l content : List Char), lazyClose delim ok l = some content →
      content.all ok = true ∧
      l.take (content.length + delim.length) = content ++ delim ∧
      content.length + delim.length ≤ l.length := by
  intro l
  induction l with
  | nil => intro content h; simp [lazyClose] at h
  | cons c t ih =>
    intro content h
    unfold lazyClose at h
    by_cases hp : delim.isPrefixOf (c :: t)
    · rw [if_pos hp] at h
      obtain rfl : content = [] := by simpa using h.symm
      have hpre : delim <+: c :: t := List.isPrefixOf_iff_prefix.mp hp
      refine ⟨rfl, ?_, ?_⟩
      · simpa using (List.prefix_iff_eq_take.mp hpre).symm
      · simpa using hpre.length_le
    · rw [if_neg hp] at h
      by_cases hc : ok c
      · rw [if_pos hc] at h
        obtain ⟨content2, hc2, rfl⟩ := Option.map_eq_some'.mp h
        obtain ⟨ha, ht, hl⟩ := ih content2 hc2
        refine ⟨by simp [ha, hc], ?_, by simp; omega⟩
        simp only [List.length_cons]
        rw [show content2.length + 1 + delim.length = (content2.length + delim.length) + 1 by omega]
        simp [List.take_succ_cons, ht]
      · rw [if_neg hc] at h
        exact absurd h (by simp)

theorem italicClose_spec (ok : Char → Bool) :
    ∀ (l content : List Char), italicClose ok l = some content →
      content ≠ [] ∧ content.all ok = true ∧
      l.take (content.length + 1) = content ++ ['*'] ∧
      (l.drop (content.length + 1)).head? ≠ some '*' ∧
      content.length + 1 ≤ l.length := by
  intro l
  induction l with
  | nil => intro content h; simp [italicClose] at h
  | cons c t ih =>
    intro content h
    unfold italicClose at h
    by_cases hc : ok c
    · rw [if_pos hc] at h
      split at h
      · next _ u =>
        by_cases hu : u.head? = some '*'
        · rw [if_pos hu] at h; exact absurd h (by simp)
        · rw [if_neg hu] at h
          obtain rfl : content = [c] := by simpa using h.symm
          exact ⟨by simp, by simp [hc], rfl, by simpa using hu, by simp⟩
      · obtain ⟨content2, hc2, rfl⟩ := Option.map_eq_some'.mp h
        obtain ⟨hne, ha, ht, hd, hl⟩ := ih content2 hc2
        refine ⟨by simp, by simp [ha, hc], ?_, ?_, by simp; omega⟩
        · simp only [List.length_cons]
          rw [List.take_succ_cons, ht]
          rfl
        · simpa [List.drop_succ_cons] using hd
    · rw [if_neg hc] at h
      exact absurd h (by simp)

theorem boldMatchAt_spec (prev : Option Char) (s : List Char) (len : Nat)
    (content c2 : List Char) (il : Nat)
    (h : boldMatchAt prev s = some (len, content, c2, il)) :
    len = content.length + 4 ∧ content.all isDot = true ∧
    s.take len = '*' :: '*' :: (content ++ ['*', '*']) ∧ len ≤ s.length := by
  unfold boldMatchAt at h
  split at h
  · next rest =>
    obtain ⟨content2, hc2, heq⟩ := Option.map_eq_some'.mp h
    obtain ⟨rfl, rfl, rfl, rfl⟩ :
        content2.length + 4 = len ∧ content2 = content ∧ ([] : List Char) = c2 ∧ 0 = il := by
      simpa using heq
    obtain ⟨ha, ht, hl⟩ := lazyClose_spec _ _ _ _ hc2
    have hd : strToL "**" = ['*', '*'] := rfl
    rw [hd] at ht hl
    have ht2 : rest.take (content2.length + 2) = content2 ++ ['*', '*'] := by
      simpa using ht
    have hl2 : content2.length + 2 ≤ rest.length := by simpa using hl
    refine ⟨rfl, ha, ?_, by simp; omega⟩
    rw [show content2.length + 4 = (content2.length + 2) + 1 + 1 by omega]
    rw [List.take_succ_cons, List.take_succ_cons, ht2]
  · exact absurd h (by simp)

theorem strikeMatchAt_spec (prev : Option Char) (s : List Char) (len : Nat)
    (content c2 : List Char) (il : Nat)
    (h : strikeMatchAt prev s = some (len, content, c2, il)) :
    len = content.length + 4 ∧ content.all isDot = true ∧
    s.take len = '~' :: '~' :: (content ++ ['~', '~']) ∧ len ≤ s.length := by
  unfold strikeMatchAt at h
  split at h
  · next rest =>
    obtain ⟨content2, hc2, heq⟩ := Option.map_eq_some'.mp h
    obtain ⟨rfl, rfl, rfl, rfl⟩ :
        content2.length + 4 = len ∧ content2 = content ∧ ([] : List Char) = c2 ∧ 0 = il := by
      simpa using heq
    obtain ⟨ha, ht, hl⟩ := lazyClose_spec _ _ _ _ hc2
    have hd : strToL "~~" = ['~', '~'] := rfl
    rw [hd] at ht hl
    have ht2 : rest.take (content2.length + 2) = content2 ++ ['~', '~'] := by
      simpa using ht
    have hl2 : content2.length + 2 ≤ rest.length := by simpa using hl
    refine ⟨rfl, ha, ?_, by simp; omega⟩
    rw [show content2.length + 4 = (content2.length + 2) + 1 + 1 by omega]
    rw [List.take_succ_cons, List.take_succ_cons, ht2]
  · exact absurd h (by simp)

theorem italicMultiMatchAt_spec (prev : Option Char) (s : List Char) (len : Nat)
    (content c2 : List Char) (il : Nat)
    (h : italicMultiMatchAt prev s = some (len, content, c2, il)) :
    prev ≠ some '*' ∧ len = content.length + 2 ∧ content ≠ [] ∧
    (∀ c ∈ content, ¬(c = '*')) ∧
    s.take len = '*' :: (content ++ ['*']) ∧
    (s.drop len).head? ≠ some '*' ∧ len ≤ s.length := by
  unfold italicMultiMatchAt at h
  split at h
  · next rest =>
    by_cases hp : prev = some '*'
    · rw [if_pos hp] at h; exact absurd h (by simp)
    · rw [if_neg hp] at h
      obtain ⟨content2, hc2, heq⟩ := Option.map_eq_some'.mp h
      obtain ⟨rfl, rfl, rfl, rfl⟩ :
          content2.length + 2 = len ∧ content2 = content ∧ ([] : List Char) = c2 ∧ 0 = il := by
        simpa using heq
      obtain ⟨hne, ha, ht, hd, hl⟩ := italicClose_spec _ _ _ hc2
      refine ⟨hp, rfl, hne, ?_, ?_, ?_, by simp; omega⟩
      · intro c hcmem
        have := List.all_eq_true.mp ha c hcmem
        simpa using this
      · rw [show content2.length + 2 = (content2.length + 1) + 1 by omega]
        rw [List.take_succ_cons, ht]
      · rw [show content2.length + 2 = (content2.length + 1) + 1 by omega]
        rw [List.drop_succ_cons]
        exact hd
  · exact absurd h (by simp)

theorem italicSingleMatchAt_spec (prev : Option Char) (s : List Char) (len : Nat)
    (content c2 : List Char) (il : Nat)
    (h : italicSingleMatchAt prev s = some (len, content, c2, il)) :
    prev ≠ some '*' ∧ len = content.length + 2 ∧ content ≠ [] ∧
    (∀ c ∈ content, ¬(c = '*')) ∧
    s.take len = '*' :: (content ++ ['*']) ∧
    (s.drop len).head? ≠ some '*' ∧ len ≤ s.length := by
  unfold italicSingleMatchAt at h
  split at h
  · next rest =>
    by_cases hp : prev = some '*'
    · rw [if_pos hp] at h; exact absurd h (by simp)
    · rw [if_neg hp] at h
      obtain ⟨content2, hc2, heq⟩ := Option.map_eq_some'.mp h
      obtain ⟨rfl, rfl, rfl, rfl⟩ :
          content2.length + 2 = len ∧ content2 = content ∧ ([] : List Char) = c2 ∧ 0 = il := by
        simpa using heq
      obtain ⟨hne, ha, ht, hd, hl⟩ := italicClose_spec _ _ _ hc2
      refine ⟨hp, rfl, hne, ?_, ?_, ?_, by simp; omega⟩
      · intro c hcmem
        have := List.all_eq_true.mp ha c hcmem
        simp at this
        simpa using this.1
      · rw [show content2.length + 2 = (content2.length + 1) + 1 by omega]
        rw [List.take_succ_cons, ht]
      · rw [show content2.length + 2 = (content2.length + 1) + 1 by omega]
        rw [List.drop_succ_cons]
        exact hd
  · exact absurd h (by simp)

theorem boldMatchAt_sane (prev : Option Char) (s : List Char)
    (r : Nat × List Char × List Char × Nat) (h : boldMatchAt prev s = some r) :
    1 ≤ r.1 ∧ r.1 ≤ s.length := by
  obtain ⟨len, content, c2, il⟩ := r
  obtain ⟨h1, -, -, h4⟩ := boldMatchAt_spec prev s len content c2 il h
  exact ⟨by omega, h4⟩

theorem strikeMatchAt_sane (prev : Option Char) (s : List Char)
    (r : Nat × List Char × List Char × Nat) (h : strikeMatchAt prev s = some r) :
    1 ≤ r.1 ∧ r.1 ≤ s.length := by
  obtain ⟨len, content, c2, il⟩ := r
  obtain ⟨h1, -, -, h4⟩ := strikeMatchAt_spec prev s len content c2 il h
  exact ⟨by omega, h4⟩

theorem italicMultiMatchAt_sane (prev : Option Char) (s : List Char)
    (r : Nat × List Char × List Char × Nat) (h : italicMultiMatchAt prev s = some r) :
    1 ≤ r.1 ∧ r.1 ≤ s.length := by
  obtain ⟨len, content, c2, il⟩ := r
  obtain ⟨-, h2, -, -, -, -, h7⟩ := italicMultiMatchAt_spec prev s len content c2 il h
  exact ⟨by omega, h7⟩

theorem italicSingleMatchAt_sane (prev : Option Char) (s : List Char)
    (r : Nat × List Char × List Char × Nat) (h : italicSingleMatchAt prev s = some r) :
    1 ≤ r.1 ∧ r.1 ≤ s.length := by
  obtain ⟨len, content, c2, il⟩ := r
  obtain ⟨-, h2, -, -, -, -, h7⟩ := italicSingleMatchAt_spec prev s len content c2 il h
  exact ⟨by omega, h7⟩

theorem scanAll_succ
    (matchAt : Option Char → List Char → Option (Nat × List Char × List Char × Nat))
    (fuel : Nat) (prev : Option Char) (s : List Char) (pos : Nat) :
    scanAll matchAt (fuel + 1) prev s pos =
      match matchAt prev s with
      | some (len, content, content2, indentLen) =>
        let len' := max len 1
        let prev' := ((s.take len').getLast?).orElse (fun _ => prev)
        ⟨pos, pos + len, content, content2, indentLen⟩ ::
          scanAll matchAt fuel prev' (s.drop len') (pos + len')
      | none =>
        match s with
        | [] => []
        | c :: t => scanAll matchAt fuel (some c) t (pos + 1) := rfl

theorem scanAll_spec
    (matchAt : Option Char → List Char → Option (Nat × List Char × List Char × Nat))
    (text : List Char)
    (hsane : ∀ prev s r, matchAt prev s = some r → 1 ≤ r.1 ∧ r.1 ≤ s.length) :
    ∀ (fuel pos : Nat) (m : MatchSpan),
      m ∈ scanAll matchAt fuel (prevOf text pos) (text.drop pos) pos →
      pos ≤ m.start ∧ m.start ≤ m.stop ∧
      matchAt (prevOf text m.start) (text.drop m.start) =
        some (m.stop - m.start, m.content, m.content2, m.indentLen) := by
  intro fuel
  induction fuel with
  | zero => intro pos m hm; simp [scanAll] at hm
  | succ fuel ih =>
    intro pos m hm
    rw [scanAll_succ] at hm
    cases hma : matchAt (prevOf text pos) (text.drop pos) with
    | some r =>
      obtain ⟨len, content, c2, il⟩ := r
      obtain ⟨hlen1, hlen2⟩ := hsane _ _ _ hma
      have hlend : len ≤ text.length - pos := by
        simpa using hlen2
      rw [hma] at hm
      simp only [Nat.max_eq_left hlen1] at hm
      have htake : ((text.drop pos).take len).getLast?.orElse (fun _ => prevOf text pos) =
          prevOf text (pos + len) := by
        have hlt : ((text.drop pos).take len).length = len := by
          simp only [List.length_take, List.length_drop]
          omega
        rw [List.getLast?_eq_getElem?, hlt]
        rw [List.getElem?_take, if_pos (show len - 1 < len by omega), List.getElem?_drop]
        have harith : pos + (len - 1) = pos + len - 1 := by omega
        rw [harith]
        have hlt2 : pos + len - 1 < text.length := by omega
        rw [List.getElem?_eq_getElem hlt2]
        simp only [Option.some_orElse, prevOf]
        rw [if_neg (show ¬(pos + len = 0) by omega), List.getElem?_eq_getElem hlt2]
        rfl
      rw [htake, List.drop_drop] at hm
      rcases List.mem_cons.mp hm with rfl | hm2
      · refine ⟨le_refl _, by simp, ?_⟩
        simpa [Nat.add_sub_cancel_left] using hma
      · obtain ⟨h1, h2, h3⟩ := ih (pos + len) m hm2
        exact ⟨by omega, h2, h3⟩
    | none =>
      rw [hma] at hm
      cases hs : text.drop pos with
      | nil => rw [hs] at hm; simp at hm
      | cons c0 t =>
        rw [hs] at hm
        simp only [] at hm
        have hprev : some c0 = prevOf text (pos + 1) := by
          have h0 : text[pos]? = some c0 := by
            have := List.getElem?_drop text pos 0
            rw [hs] at this
            simpa using this.symm
          simp [prevOf, h0]
        have ht : t = text.drop (pos + 1) := by
          have := List.tail_drop text pos
          rw [hs] at this
          simpa using this
        rw [hprev, ht] at hm
        obtain ⟨h1, h2, h3⟩ := ih (pos + 1) m hm
        exact ⟨by omega, h2, h3⟩

theorem findAll_spec
    (matchAt : Option Char → List Char → Option (Nat × List Char × List Char × Nat))
    (text : List Char)
    (hsane : ∀ prev s r, matchAt prev s = some r → 1 ≤ r.1 ∧ r.1 ≤ s.length) :
    ∀ m ∈ findAll matchAt text,
      m.start ≤ m.stop ∧
      matchAt (prevOf text m.start) (text.drop m.start) =
        some (m.stop - m.start, m.content, m.content2, m.indentLen) := by
  intro m hm
  have h0 : (none : Option Char) = prevOf text 0 := by simp [prevOf]
  have hd : text = text.drop 0 := by simp
  unfold findAll at hm
  rw [h0] at hm
  nth_rewrite 2 [hd] at hm
  obtain ⟨-, h2, h3⟩ := scanAll_spec matchAt text hsane (text.length + 1) 0 m hm
  exact ⟨h2, h3⟩

theorem go_zone_boundaries (text : List Char) :
    ∀ (ls : List (List Char)) (inCB : Bool) (bs cur : Nat),
      text.drop cur = joinNl ls →
      (inCB = true → 1 ≤ bs ∧ bs ≤ cur ∧ text[bs - 1]? = some '\n') →
      (cur = 0 ∨ text[cur - 1]? = some '\n') →
      ∀ z ∈ getCodeBlockRanges.go ls inCB bs cur,
        1 ≤ z.start ∧ text[z.start - 1]? = some '\n' ∧
        1 ≤ z.stop ∧ text[z.stop - 1]? = some '\n' := by
  intro ls
  induction ls with
  | nil =>
    intro inCB bs cur _ _ _ z hz
    simp [getCodeBlockRanges.go] at hz
  | cons l rest ih =>
    intro inCB bs cur hdrop hbs hcur z hz
    rcases rest with _ | ⟨r, rs⟩
    · -- last line: any recursive call processes the empty list
      by_cases hf : (strToL "```").isPrefixOf l
      · cases inCB with
        | false => simp [getCodeBlockRanges.go, hf] at hz
        | true =>
          simp only [getCodeBlockRanges.go, hf, if_true, Bool.not_true,
            Bool.false_eq_true, if_false] at hz
          rcases List.mem_cons.mp hz with rfl | hz2
          · obtain ⟨hbs1, hbs2, hbs3⟩ := hbs rfl
            refine ⟨hbs1, hbs3, by show 1 ≤ cur; omega, ?_⟩
            rcases hcur with h0 | hc
            · exact absurd (le_trans hbs1 hbs2) (by omega)
            · exact hc
          · simp [getCodeBlockRanges.go] at hz2
      · simp [getCodeBlockRanges.go, hf] at hz
    · -- at least one more line: establish the invariants at the next line start
      have hjoin : joinNl (l :: r :: rs) = l ++ '\n' :: joinNl (r :: rs) := rfl
      have hd1 : text.drop (cur + l.length) = '\n' :: joinNl (r :: rs) := by
        have h1 : (text.drop cur).drop l.length = ('\n' : Char) :: joinNl (r :: rs) := by
          rw [hdrop, hjoin, List.drop_left]
        rw [List.drop_drop] at h1
        exact h1
      have hnlpos : text[cur + l.length]? = some '\n' := by
        have h2 := List.getElem?_drop text (cur + l.length) 0
        rw [hd1] at h2
        simpa using h2.symm
      have hd2 : text.drop (cur + l.length + 1) = joinNl (r :: rs) := by
        have h3 := List.tail_drop text (cur + l.length)
        rw [hd1] at h3
        simpa using h3.symm
      by_cases hf : (strToL "```").isPrefixOf l
      · cases inCB with
        | false =>
          simp only [getCodeBlockRanges.go, hf, if_true, Bool.not_false, if_true] at hz
          refine ih true (cur + l.length + 1) (cur + l.length + 1) hd2 ?_ ?_ z hz
          · intro _
            exact ⟨by omega, le_refl _, by simpa using hnlpos⟩
          · exact Or.inr (by simpa using hnlpos)
        | true =>
          simp only [getCodeBlockRanges.go, hf, if_true, Bool.not_true,
            Bool.false_eq_true, if_false] at hz
          rcases List.mem_cons.mp hz with rfl | hz2
          · obtain ⟨hbs1, hbs2, hbs3⟩ := hbs rfl
            refine ⟨hbs1, hbs3, by show 1 ≤ cur; omega, ?_⟩
            rcases hcur with h0 | hc
            · exact absurd (le_trans hbs1 hbs2) (by omega)
            · exact hc
          · obtain ⟨hbs1, hbs2, hbs3⟩ := hbs rfl
            refine ih false bs (cur + l.length + 1) hd2 (by simp) ?_ z hz2
            exact Or.inr (by simpa using hnlpos)
      · simp only [getCodeBlockRanges.go, hf, Bool.false_eq_true, if_false] at hz
        refine ih inCB bs (cur + l.length + 1) hd2 ?_ ?_ z hz
        · intro hin
          obtain ⟨hbs1, hbs2, hbs3⟩ := hbs hin
          exact ⟨hbs1, by omega, hbs3⟩
        · exact Or.inr (by simpa using hnlpos)

theorem zone_boundaries (text : List Char) (z : ExRange)
    (hz : z ∈ getCodeBlockRanges text) :
    1 ≤ z.start ∧ text[z.start - 1]? = some '\n' ∧
    1 ≤ z.stop ∧ text[z.stop - 1]? = some '\n' := by
  unfold getCodeBlockRanges at hz
  exact go_zone_boundaries text (splitOnNl text) false 0 0
    (by simp [joinNl_splitOnNl]) (by simp) (Or.inl rfl) z hz

theorem nlfree_span_in_zone (text : List Char) (z : ExRange)
    (hz1 : 1 ≤ z.start) (hz2 : text[z.start - 1]? = some '\n')
    (hz3 : 1 ≤ z.stop) (hz4 : text[z.stop - 1]? = some '\n')
    (a b : Nat) (hab : ∀ i, a ≤ i → i < b → text[i]? ≠ some '\n')
    (c : Nat) (hc1 : a ≤ c) (hc2 : c < b) (hc3 : z.start ≤ c) (hc4 : c < z.stop) :
    z.start ≤ a ∧ b ≤ z.stop := by
  constructor
  · by_contra hlt
    push_neg at hlt
    exact hab (z.start - 1) (by omega) (by omega) hz2
  · by_contra hlt
    push_neg at hlt
    exact hab (z.stop - 1) (by omega) (by omega) hz4

theorem boldFindAll_span (text : List Char) (m : MatchSpan) (hm : m ∈ boldFindAll text) :
    m.start + 4 ≤ m.stop ∧ m.stop ≤ text.length ∧
    ∀ i, m.start ≤ i → i < m.stop → text[i]? ≠ some '\n' := by
  obtain ⟨hle, hma⟩ := findAll_spec boldMatchAt text boldMatchAt_sane m hm
  obtain ⟨hlen, hdot, htake, hbound⟩ := boldMatchAt_spec _ _ _ _ _ _ hma
  have hlb : (text.drop m.start).length = text.length - m.start := by simp
  rw [hlb] at hbound
  refine ⟨by omega, by omega, ?_⟩
  intro i hi1 hi2 hcontra
  have hj : i - m.start < ('*' :: '*' :: (m.content ++ ['*', '*'])).length := by
    simp
    omega
  have hget := slice_getElem text m.start m.stop _ htake (i - m.start) hj
  rw [show m.start + (i - m.start) = i by omega] at hget
  rw [hcontra] at hget
  have hmem : ('\n' : Char) ∈ '*' :: '*' :: (m.content ++ ['*', '*']) :=
    List.getElem?_mem hget.symm
  rcases List.mem_cons.mp hmem with h | hmem
  · exact absurd h (by decide)
  rcases List.mem_cons.mp hmem with h | hmem
  · exact absurd h (by decide)
  rcases List.mem_append.mp hmem with h | h
  · have := List.all_eq_true.mp hdot _ h
    exact absurd this (by decide)
  · rcases List.mem_cons.mp h with h2 | h2
    · exact absurd h2 (by decide)
    rcases List.mem_cons.mp h2 with h3 | h3
    · exact absurd h3 (by decide)
    · exact absurd h3 (List.not_mem_nil _)

theorem strikeFindAll_span (text : List Char) (m : MatchSpan) (hm : m ∈ strikeFindAll text) :
    m.start + 4 ≤ m.stop ∧ m.stop ≤ text.length ∧
    ∀ i, m.start ≤ i → i < m.stop → text[i]? ≠ some '\n' := by
  obtain ⟨hle, hma⟩ := findAll_spec strikeMatchAt text strikeMatchAt_sane m hm
  obtain ⟨hlen, hdot, htake, hbound⟩ := strikeMatchAt_spec _ _ _ _ _ _ hma
  have hlb : (text.drop m.start).length = text.length - m.start := by simp
  rw [hlb] at hbound
  refine ⟨by omega, by omega, ?_⟩
  intro i hi1 hi2 hcontra
  have hj : i - m.start < ('~' :: '~' :: (m.content ++ ['~', '~'])).length := by
    simp
    omega
  have hget := slice_getElem text m.start m.stop _ htake (i - m.start) hj
  rw [show m.start + (i - m.start) = i by omega] at hget
  rw [hcontra] at hget
  have hmem : ('\n' : Char) ∈ '~' :: '~' :: (m.content ++ ['~', '~']) :=
    List.getElem?_mem hget.symm
  rcases List.mem_cons.mp hmem with h | hmem
  · exact absurd h (by decide)
  rcases List.mem_cons.mp hmem with h | hmem
  · exact absurd h (by decide)
  rcases List.mem_append.mp hmem with h | h
  · have := List.all_eq_true.mp hdot _ h
    exact absurd this (by decide)
  · rcases List.mem_cons.mp h with h2 | h2
    · exact absurd h2 (by decide)
    rcases List.mem_cons.mp h2 with h3 | h3
    · exact absurd h3 (by decide)
    · exact absurd h3 (List.not_mem_nil _)

theorem italic_spec_facts (text : List Char) (m : MatchSpan)
    (hle : m.start ≤ m.stop)
    (hlen : m.stop - m.start = m.content.length + 2)
    (hne : m.content ≠ [])
    (hstar : ∀ c ∈ m.content, ¬(c = '*'))
    (htake : (text.drop m.start).take (m.stop - m.start) = '*' :: (m.content ++ ['*']))
    (hdropHead : ((text.drop m.start).drop (m.stop - m.start)).head? ≠ some '*')
    (hprev : prevOf text m.start ≠ some '*') :
    text[m.start]? = some '*' ∧ text[m.stop - 1]? = some '*' ∧
    (∀ i, m.start < i → i + 1 < m.stop → text[i]? ≠ some '*') ∧
    text[m.stop]? ≠ some '*' ∧
    (m.start = 0 ∨ text[m.start - 1]? ≠ some '*') ∧
    m.start + 3 ≤ m.stop := by
  have hcpos : 0 < m.content.length := List.length_pos.mpr hne
  have hplen : ('*' :: (m.content ++ ['*'])).length = m.stop - m.start := by
    simp
    omega
  have hg : ∀ j, j < m.stop - m.start →
      text[m.start + j]? = ('*' :: (m.content ++ ['*']))[j]? := by
    intro j hj
    exact slice_getElem text m.start m.stop _ htake j (by rw [hplen]; omega)
  refine ⟨?_, ?_, ?_, ?_, ?_, by omega⟩
  · have := hg 0 (by omega)
    simpa using this
  · have := hg (m.content.length + 1) (by omega)
    rw [show m.start + (m.content.length + 1) = m.stop - 1 by omega] at this
    rw [this]
    rw [List.getElem?_cons_succ, List.getElem?_concat_length]
  · intro i hi1 hi2 hcontra
    have hj1 : 1 ≤ i - m.start := by omega
    have hj2 : i - m.start < m.stop - m.start - 1 := by omega
    have := hg (i - m.start) (by omega)
    rw [show m.start + (i - m.start) = i by omega, hcontra] at this
    rw [show i - m.start = (i - m.start - 1) + 1 by omega, List.getElem?_cons_succ] at this
    rw [List.getElem?_append, if_pos (show i - m.start - 1 < m.content.length by omega)] at this
    have hmem : ('*' : Char) ∈ m.content := List.getElem?_mem this.symm
    exact hstar '*' hmem rfl
  · have heq2 : (text.drop m.start).drop (m.stop - m.start) = text.drop m.stop := by
      rw [List.drop_drop, show m.start + (m.stop - m.start) = m.stop by omega]
    rw [heq2] at hdropHead
    have hh : (text.drop m.stop).head? = text[m.stop]? := by
      rw [List.head?_eq_getElem?]
      have h5 := List.getElem?_drop text m.stop 0
      simp only [Nat.add_zero] at h5
      exact h5
    rw [hh] at hdropHead
    exact hdropHead
  · unfold prevOf at hprev
    by_cases h0 : m.start = 0
    · exact Or.inl h0
    · rw [if_neg h0] at hprev
      exact Or.inr hprev

theorem italic_no_occurrence_touch (text : List Char) (k : Nat) (m : MatchSpan)
    (hocc : slice text k (k + 12) = strToL "**not bold**")
    (hA : text[m.start]? = some '*')
    (hB : text[m.stop - 1]? = some '*')
    (hC : ∀ i, m.start < i → i + 1 < m.stop → text[i]? ≠ some '*')
    (hD : text[m.stop]? ≠ some '*')
    (hE : m.start = 0 ∨ text[m.start - 1]? ≠ some '*')
    (hF : m.start + 3 ≤ m.stop) :
    ¬(k < m.stop ∧ m.start < k + 12) := by
  rintro ⟨h1, h2⟩
  have hg : ∀ j, j < 12 → text[k + j]? = (strToL "**not bold**")[j]? := by
    intro j hj
    exact slice_getElem text k (k + 12) _ hocc j (by simp [strToL]; omega)
  have s0 : text[k]? = some '*' := by simpa using hg 0 (by omega)
  have s1 : text[k + 1]? = some '*' := by simpa using hg 1 (by omega)
  have s10 : text[k + 10]? = some '*' := by simpa using hg 10 (by omega)
  have s11 : text[k + 11]? = some '*' := by simpa using hg 11 (by omega)
  have hmid : ∀ j, 2 ≤ j → j ≤ 9 → text[k + j]? ≠ some '*' := by
    intro j hj1 hj2 hcontra
    have hgj := hg j (by omega)
    rw [hcontra] at hgj
    interval_cases j <;> exact absurd hgj (by decide)
  rcases Nat.lt_or_ge m.start k with hk | hk
  · -- the match starts before the occurrence
    rcases (by omega : m.stop - 1 = k ∨ m.stop - 1 = k + 1 ∨ k + 1 < m.stop - 1) with he | he | he
    · exact hD (by rw [show m.stop = k + 1 by omega]; exact s1)
    · exact hC k hk (by omega) s0
    · exact hC (k + 1) (by omega) (by omega) s1
  · -- the match starts inside the occurrence
    rcases (by omega : m.start = k ∨ m.start = k + 1 ∨ (k + 2 ≤ m.start ∧ m.start ≤ k + 9) ∨
        m.start = k + 10 ∨ m.start = k + 11) with he | he | he | he | he
    · exact hC (k + 1) (by omega) (by omega) s1
    · rcases (by omega : m.stop < k + 11 ∨ m.stop = k + 11 ∨ k + 11 < m.stop) with hs | hs | hs
      · exact hmid (m.stop - 1 - k) (by omega) (by omega)
          (by rw [show k + (m.stop - 1 - k) = m.stop - 1 by omega]; exact hB)
      · exact hD (by rw [hs]; exact s11)
      · exact hC (k + 10) (by omega) (by omega) s10
    · exact hmid (m.start - k) (by omega) (by omega)
        (by rw [show k + (m.start - k) = m.start by omega]; exact hA)
    · exact hC (k + 11) (by omega) (by omega) s11
    · rcases hE with h0 | hne
      · omega
      · exact hne (by rw [show m.start - 1 = k + 10 by omega]; exact s10)

/-! ## Claim theorems -/

/-- Claim C1 (counterexample): the claim as stated is false — at the clean
text "```\n# x\n```" the header pass, which runs after fenced-code-block
detection and is not the code-block-internal tokenizer, registers a match that
lies inside (hence intersects) a fenced-code exclusion zone, because the
header passes never receive the exclusion ranges. -/
theorem c1_counterexample :
    ((mlHeaderRegistered 1 (strToL "```\n# x\n```")).any fun m =>
      containedInAny m (getCodeBlockRanges (strToL "```\n# x\n```"))) = true := by
  decide

/-- Claim C1 (amended): in both multi-line-comment and markdown-file blocks,
the inline bold, italic, inline-code, strikethrough, link and image passes
register no match lying entirely within a fenced-code exclusion zone; the
task-item and bullet/numbered-list passes are zone-checked only in
markdown-file mode, where they register no match whose start offset lies in an
exclusion zone (in multi-line comments they receive no zones); the header
passes receive no zones at all. -/
theorem c1_zone_exclusion (text : List Char) :
    (∀ m ∈ mlBoldRegistered text, containedInAny m (getCodeBlockRanges text) = false) ∧
    (∀ m ∈ mlItalicRegistered text, containedInAny m (getCodeBlockRanges text) = false) ∧
    (∀ m ∈ mlCodeRegistered text, containedInAny m (getCodeBlockRanges text) = false) ∧
    (∀ m ∈ mlStrikeRegistered text, containedInAny m (getCodeBlockRanges text) = false) ∧
    (∀ m ∈ mlLinkRegistered text, containedInAny m (getCodeBlockRanges text) = false) ∧
    (∀ m ∈ mlImageRegistered text, containedInAny m (getCodeBlockRanges text) = false) ∧
    (∀ m ∈ mdBoldRegistered text, containedInAny m (getCodeBlockRanges text) = false) ∧
    (∀ m ∈ mdItalicRegistered text, containedInAny m (getCodeBlockRanges text) = false) ∧
    (∀ m ∈ mdCodeRegistered text, containedInAny m (getCodeBlockRanges text) = false) ∧
    (∀ m ∈ mdStrikeRegistered text, containedInAny m (getCodeBlockRanges text) = false) ∧
    (∀ m ∈ mdLinkRegistered text, containedInAny m (getCodeBlockRanges text) = false) ∧
    (∀ m ∈ mdImageRegistered text, containedInAny m (getCodeBlockRanges text) = false) ∧
    (∀ m ∈ mdTaskRegistered text, startInAny m (getCodeBlockRanges text) = false) ∧
    (∀ m ∈ mdBulletRegistered text, startInAny m (getCodeBlockRanges text) = false) ∧
    (∀ m ∈ mdNumberedRegistered text, startInAny m (getCodeBlockRanges text) = false) := by
  refine ⟨fun m hm => mem_skipContained hm, fun m hm => mem_skipContained hm,
          fun m hm => mem_skipContained hm, fun m hm => mem_skipContained hm,
          fun m hm => mem_skipContained hm, fun m hm => mem_skipContained hm,
          ?_, ?_, ?_, ?_, ?_, ?_, ?_, ?_, ?_⟩
  · exact fun m hm => (containedInAny_append (mem_skipContained hm)).2
  · exact fun m hm => (containedInAny_append (mem_skipContained hm)).2
  · exact fun m hm => (containedInAny_append (mem_skipContained hm)).2
  · exact fun m hm => (containedInAny_append (mem_skipContained hm)).2
  · exact fun m hm => (containedInAny_append (mem_skipContained hm)).2
  · exact fun m hm => (containedInAny_append (mem_skipContained hm)).2
  · exact fun m hm => (startInAny_append (mem_skipStartIn hm)).2
  · exact fun m hm => (startInAny_append (mem_skipStartIn (List.mem_filter.mp hm).1)).2
  · exact fun m hm => (startInAny_append (mem_skipStartIn hm)).2

/-- Claim C1 witness: the bold match of a plain `**b**` text is registered and
is indeed outside every (here: absent) exclusion zone. -/
theorem c1_zone_exclusion_witness :
    containedInAny ⟨0, 5, strToL "b", [], 0⟩ (getCodeBlockRanges (strToL "**b**")) = false :=
  (c1_zone_exclusion (strToL "**b**")).1 ⟨0, 5, strToL "b", [], 0⟩ (by decide)

/-- Claim C2 (counterexample): for the document "/* a\nb" — a block-comment
start with no end marker — extraction emits a block whose `endLine` is 0, the
start-marker line, while the last line of the document is line 1; the block
does not end at end of file as claimed. -/
theorem c2_counterexample :
    ((extractComments (strToL "/* a\nb") "typescript").map fun b => b.endLine) = [0] ∧
    (splitOnNl (strToL "/* a\nb")).length - 1 = 1 ∧ (0 : Nat) ≠ 1 := by
  decide

/-- Claim C2 (amended): for every document containing a block-comment start
marker with no matching end marker before end of file, extraction still emits
a CommentBlock for that region without any error, and the block's
`originalLines` extend to the last line of the document — but its `endLine`
equals the start-marker line (`startLine`), not the last line of the
document. -/
theorem c2_unterminated_block (lines : List (List Char)) (startLine : Nat)
    (h1 : startLine < lines.length)
    (h2 : ∀ l ∈ lines.drop (startLine + 1), mlEndIdx .starSlash l = none) :
    (extractMultiLineComment lines startLine .starSlash).endLine = startLine ∧
    (extractMultiLineComment lines startLine .starSlash).originalLines =
      lines.drop startLine := by
  have haux := mlcAux_no_end .starSlash (lines.drop (startLine + 1)) h2
  constructor
  · unfold extractMultiLineComment
    rw [haux]
  · unfold extractMultiLineComment
    rw [haux]
    simp only
    rw [List.drop_eq_getElem_cons h1]
    simp [List.headD_eq_head?, List.head?_drop, List.getElem?_eq_getElem h1]

/-- Claim C2 witness: the unterminated two-line document "/* a" / "b". -/
theorem c2_unterminated_block_witness :
    (extractMultiLineComment [strToL "/* a", strToL "b"] 0 .starSlash).endLine = 0 ∧
    (extractMultiLineComment [strToL "/* a", strToL "b"] 0 .starSlash).originalLines =
      [strToL "/* a", strToL "b"] :=
  c2_unterminated_block [strToL "/* a", strToL "b"] 0 (by decide) (by decide)

/-- Claim C7 (counterexample): on the line
`*italic with **nested-looking** text*` the italic pass produces no match at
all — in particular no match whose content is the full string
`italic with **nested-looking** text` as the claim asserts. -/
theorem c7_counterexample :
    ((italicMultiFindAll (strToL "*italic with **nested-looking** text*")).map
      fun m => m.content) = [] := by
  decide

/-- Claim C7 (amended): the italic pattern indeed never terminates a match at
the first `*` of the inner `**`, but only because its content class `[^*]+`
cannot cross any `*` and its lookarounds reject starts adjacent to `*`, so on
`*italic with **nested-looking** text*` the italic pass (in both its
multi-line and single-line variants) produces no match at all. -/
theorem c7_no_italic_match :
    italicMultiFindAll (strToL "*italic with **nested-looking** text*") = [] ∧
    italicSingleFindAll (strToL "*italic with **nested-looking** text*") = [] := by
  decide

/-- Claim C3: the edit-mode gate of `updateDecorations`. The cursor lies in
some block exactly when the active-block search succeeds; for a non-markdown
file with an active block, the filtered set keeps exactly the instructions
whose start line lies outside `[startLine, endLine]` of that (first found)
block; with no containing block, or for a markdown file, exactly the
instructions on the cursor line itself are removed. -/
theorem c3_edit_mode_gate (decs : List (String × OverlayInstruction))
    (blocks : List CommentBlock) (activeLine : Nat) :
    ((∃ b ∈ blocks, b.startLine ≤ activeLine ∧ activeLine ≤ b.endLine) ↔
      (findActiveBlock blocks activeLine).isSome = true) ∧
    (∀ b, findActiveBlock blocks activeLine = some b →
      ∀ d, d ∈ filterDecorations decs blocks activeLine false ↔
        d ∈ decs ∧ (d.2.start.line < b.startLine ∨ b.endLine < d.2.start.line)) ∧
    (findActiveBlock blocks activeLine = none →
      ∀ d, d ∈ filterDecorations decs blocks activeLine false ↔
        d ∈ decs ∧ d.2.start.line ≠ activeLine) ∧
    (∀ d, d ∈ filterDecorations decs blocks activeLine true ↔
      d ∈ decs ∧ d.2.start.line ≠ activeLine) := by
  refine ⟨?_, ?_, ?_, ?_⟩
  · simp [findActiveBlock, List.find?_isSome]
  · intro b hb d
    unfold filterDecorations
    simp only [Bool.false_eq_true, if_neg, ite_false, hb, List.mem_filter]
    simp
  · intro hb d
    unfold filterDecorations
    simp only [Bool.false_eq_true, if_neg, ite_false, hb, List.mem_filter]
    simp
  · intro d
    unfold filterDecorations
    simp only [ite_true, List.mem_filter]
    simp

/-- Claim C3 witness: block spanning lines 5–10 with cursor on line 7 — an
instruction on line 12 is kept exactly when it was present and lies outside
the block. -/
theorem c3_edit_mode_gate_witness :
    ("a", (⟨⟨12, 0⟩, ⟨12, 0⟩, none⟩ : OverlayInstruction)) ∈
        filterDecorations [("a", ⟨⟨12, 0⟩, ⟨12, 0⟩, none⟩), ("a", ⟨⟨6, 0⟩, ⟨6, 1⟩, none⟩)]
          [⟨[], 5, 10, 0, 0, [], []⟩] 7 false ↔
      ("a", (⟨⟨12, 0⟩, ⟨12, 0⟩, none⟩ : OverlayInstruction)) ∈
          [("a", (⟨⟨12, 0⟩, ⟨12, 0⟩, none⟩ : OverlayInstruction)),
           ("a", ⟨⟨6, 0⟩, ⟨6, 1⟩, none⟩)] ∧
        (12 < 5 ∨ 10 < 12) :=
  (c3_edit_mode_gate [("a", ⟨⟨12, 0⟩, ⟨12, 0⟩, none⟩), ("a", ⟨⟨6, 0⟩, ⟨6, 1⟩, none⟩)]
    [⟨[], 5, 10, 0, 0, [], []⟩] 7).2.1 ⟨[], 5, 10, 0, 0, [], []⟩ (by decide)
    ("a", ⟨⟨12, 0⟩, ⟨12, 0⟩, none⟩)

/-- Claim C4: when the position mapper returns the not-found signal (`none`,
never an exception — the embedded mapper is a total function), the single
match contributes no hide or show instruction, and the emission for a match
list containing it equals the emission for the other matches alone:
processing continues unharmed. -/
theorem c4_unmappable_match (dt : String) (zones : List ExRange)
    (comment : CommentBlock) (docLines : List (List Char)) (activeLine : Int)
    (text : List Char) (m : MatchSpan)
    (h : getDocumentPosition m.start m.stop comment docLines text = none) :
    parseAndReplaceOne dt zones comment docLines activeLine text m = [] ∧
    ∀ ms1 ms2,
      parseAndReplaceEmit dt zones comment docLines activeLine text (ms1 ++ m :: ms2) =
        parseAndReplaceEmit dt zones comment docLines activeLine text ms1 ++
          parseAndReplaceEmit dt zones comment docLines activeLine text ms2 := by
  have hone : parseAndReplaceOne dt zones comment docLines activeLine text m = [] := by
    unfold parseAndReplaceOne
    rw [h]
    simp
  refine ⟨hone, fun ms1 ms2 => ?_⟩
  unfold parseAndReplaceEmit
  rw [List.flatMap_append, List.flatMap_cons, hone]
  simp

/-- Claim C4 witness: a comment whose clean text "zz" does not occur in the
document line "ab" — the mapper returns `none`, the match emits nothing, and a
surrounding match list is processed as if the match were absent. -/
theorem c4_unmappable_match_witness :
    parseAndReplaceOne "bold" [] ⟨strToL "zz", 0, 0, 0, 2, [], []⟩ [strToL "ab"] (-1)
        (strToL "zz") ⟨0, 2, [], [], 0⟩ = [] ∧
    parseAndReplaceEmit "bold" [] ⟨strToL "zz", 0, 0, 0, 2, [], []⟩ [strToL "ab"] (-1)
        (strToL "zz") ([] ++ ⟨0, 2, [], [], 0⟩ :: []) =
      parseAndReplaceEmit "bold" [] ⟨strToL "zz", 0, 0, 0, 2, [], []⟩ [strToL "ab"] (-1)
          (strToL "zz") [] ++
        parseAndReplaceEmit "bold" [] ⟨strToL "zz", 0, 0, 0, 2, [], []⟩ [strToL "ab"] (-1)
          (strToL "zz") [] :=
  ⟨(c4_unmappable_match "bold" [] ⟨strToL "zz", 0, 0, 0, 2, [], []⟩ [strToL "ab"] (-1)
      (strToL "zz") ⟨0, 2, [], [], 0⟩ (by decide)).1,
   (c4_unmappable_match "bold" [] ⟨strToL "zz", 0, 0, 0, 2, [], []⟩ [strToL "ab"] (-1)
      (strToL "zz") ⟨0, 2, [], [], 0⟩ (by decide)).2 [] []⟩

/-- Claim C5: a single-line comment block (`startLine = endLine`) is parsed by
`parseSingleLineComment`, whose only passes are links, bold, italic, inline
code and strikethrough — never headers, list items, task items or code
fences; concretely, `// # Not a header` yields no match at all and
`// **bold**` yields exactly one bold match. -/
theorem c5_single_line_mode :
    (∀ c : CommentBlock, c.startLine = c.endLine →
      ∀ m ∈ commentMatches c,
        m.kind = .link ∨ m.kind = .bold ∨ m.kind = .italic ∨ m.kind = .code ∨
          m.kind = .strikethrough) ∧
    (extractComments (strToL "// # Not a header") "typescript").map commentMatches =
      [[]] ∧
    (extractComments (strToL "// **bold**") "typescript").map
        (fun b => (commentMatches b).map fun m => m.kind) = [[.bold]] := by
  refine ⟨?_, by decide, by decide⟩
  intro c h m hm
  unfold commentMatches at hm
  rw [if_pos h] at hm
  unfold singleLineMatches tagAll at hm
  simp only [List.mem_append, List.mem_map] at hm
  rcases hm with ((((⟨x, hx, rfl⟩ | ⟨x, hx, rfl⟩) | ⟨x, hx, rfl⟩) | ⟨x, hx, rfl⟩) |
    ⟨x, hx, rfl⟩) <;> simp

/-- Claim C5 witness: the single-line block holding `**bold**` produces a
match of an allowed single-line kind. -/
theorem c5_single_line_mode_witness :
    (⟨MKind.bold, 0, 8, strToL "bold"⟩ : TaggedMatch).kind = .link ∨
    (⟨MKind.bold, 0, 8, strToL "bold"⟩ : TaggedMatch).kind = .bold ∨
    (⟨MKind.bold, 0, 8, strToL "bold"⟩ : TaggedMatch).kind = .italic ∨
    (⟨MKind.bold, 0, 8, strToL "bold"⟩ : TaggedMatch).kind = .code ∨
    (⟨MKind.bold, 0, 8, strToL "bold"⟩ : TaggedMatch).kind = .strikethrough :=
  c5_single_line_mode.1 ⟨strToL "**bold**", 0, 0, 3, 11, [], []⟩ rfl
    ⟨MKind.bold, 0, 8, strToL "bold"⟩ (by decide)

/-- Claim C6: on interior lines of a multi-line block comment the cleaning
step strips exactly the prefix "optional indentation, one decorative asterisk,
one following whitespace character", while a line-leading doubled asterisk
`**` does not match the pattern and the line survives unmodified — JavaDoc
bold syntax reaches the clean text intact; concretely, extracting
`/*` / ` * x` / `** y` / `*/` yields cleaned lines `x` and `** y`. -/
theorem c6_asterisk_strip (ws rest : List Char) (h : ws.all isJsWs = true) :
    cleanInteriorLine (ws ++ '*' :: ' ' :: rest) = rest ∧
    cleanInteriorLine (ws ++ '*' :: '*' :: rest) = ws ++ '*' :: '*' :: rest ∧
    (extractComments (strToL "/*\n * x\n** y\n*/") "typescript").map
        (fun b => b.cleanedLines) = [[[], strToL "x", strToL "** y", []]] := by
  have hstar : isJsWs '*' = false := by decide
  have hsp : isJsWs ' ' = true := by decide
  refine ⟨?_, ?_, by decide⟩
  · unfold cleanInteriorLine
    have ht : (ws ++ '*' :: ' ' :: rest).takeWhile isJsWs = ws := by
      rw [takeWhile_all_append _ _ _ h]
      simp [List.takeWhile_cons, hstar]
    simp only [ht, List.drop_left]
    simp [hsp]
  · unfold cleanInteriorLine
    have ht : (ws ++ '*' :: '*' :: rest).takeWhile isJsWs = ws := by
      rw [takeWhile_all_append _ _ _ h]
      simp [List.takeWhile_cons, hstar]
    simp only [ht, List.drop_left]
    simp [hstar]

/-- Claim C6 witness: with two spaces of indentation, ` * hi` cleans to `hi`
while ` ** hi` (doubled asterisk) is left untouched. -/
theorem c6_asterisk_strip_witness :
    cleanInteriorLine (strToL "  " ++ '*' :: ' ' :: strToL "hi") = strToL "hi" ∧
    cleanInteriorLine (strToL "  " ++ '*' :: '*' :: strToL " hi") =
      strToL "  " ++ '*' :: '*' :: strToL " hi" :=
  ⟨(c6_asterisk_strip (strToL "  ") (strToL "hi") (by decide)).1,
   (c6_asterisk_strip (strToL "  ") (strToL " hi") (by decide)).2.1⟩

theorem nlfree_registered_no_touch (text : List Char) (z : ExRange) (k e : Nat)
    (hz : z ∈ getCodeBlockRanges text) (hk1 : z.start ≤ k) (hk2 : e ≤ z.stop)
    (m : MatchSpan)
    (hnc : containedInAny m (getCodeBlockRanges text) = false)
    (hpos : m.start < m.stop)
    (hspan : ∀ i, m.start ≤ i → i < m.stop → text[i]? ≠ some '\n')
    (hke : k < e) :
    ¬(k < m.stop ∧ m.start < e) := by
  rintro ⟨h1, h2⟩
  obtain ⟨hz1, hz2, hz3, hz4⟩ := zone_boundaries text z hz
  obtain ⟨hcont1, hcont2⟩ := nlfree_span_in_zone text z hz1 hz2 hz3 hz4
    m.start m.stop hspan (max m.start k) (le_max_left _ _) (by omega) (by omega) (by omega)
  exact (containedInAny_eq_false_iff.mp hnc z hz) ⟨hcont1, hcont2⟩

/-- Claim C8: for every block — multi-line comment or markdown file — whose
clean text contains a fenced code block (a `getCodeBlockRanges` zone `z`)
whose body contains the literal `**not bold**` at offset `k`, the bold,
italic and strikethrough passes register no match touching that literal
(bold and strikethrough matches are newline-free, hence confined to the zone
and skipped; italic matches can never reach into a `**` pair at all), while
`replaceCodeBlockDelimiters` still matches every fence delimiter line: for
each fence match the position mapper locates off the active line it emits the
hide instruction covering the delimiter plus a horizontal-rule decoration, and
the rule for a tagged fence embeds the language tag; concretely, in the block
comment `c8File` the bold pass sees the raw `**not bold**` match yet registers
nothing, and both delimiter lines are hidden and replaced, the opening rule
embedding ` js `. -/
theorem c8_code_fence_exclusion (text : List Char) (z : ExRange) (k : Nat)
    (hz : z ∈ getCodeBlockRanges text)
    (hocc : slice text k (k + 12) = strToL "**not bold**")
    (hk1 : z.start ≤ k) (hk2 : k + 12 ≤ z.stop) :
    (∀ m ∈ mlBoldRegistered text, ¬(k < m.stop ∧ m.start < k + 12)) ∧
    (∀ m ∈ mdBoldRegistered text, ¬(k < m.stop ∧ m.start < k + 12)) ∧
    (∀ m ∈ mlStrikeRegistered text, ¬(k < m.stop ∧ m.start < k + 12)) ∧
    (∀ m ∈ mdStrikeRegistered text, ¬(k < m.stop ∧ m.start < k + 12)) ∧
    (∀ m ∈ mlItalicRegistered text, ¬(k < m.stop ∧ m.start < k + 12)) ∧
    (∀ m ∈ mdItalicRegistered text, ¬(k < m.stop ∧ m.start < k + 12)) ∧
    (∀ (comment : CommentBlock) (docLines : List (List Char)) (activeLine : Int),
      ∀ m ∈ fenceFindAll text, ∀ ps pe : Pos,
        getDocumentPosition m.start m.stop comment docLines text = some (ps, pe) →
        ¬((ps.line : Int) = activeLine) →
        ("replace", (⟨ps, pe, none⟩ : OverlayInstruction)) ∈
            replaceCodeBlockDelimiters text comment docLines activeLine ∧
          ("bold", (⟨ps, ps, some (fenceRuleText m.content)⟩ : OverlayInstruction)) ∈
            replaceCodeBlockDelimiters text comment docLines activeLine) ∧
    (∀ lang : List Char, lang ≠ [] → (' ' :: (lang ++ [' '])) <:+: fenceRuleText lang) ∧
    (c8Block.text = strToL "```js\n**not bold**\n```" ∧
     boldFindAll c8Block.text = [⟨6, 18, strToL "not bold", [], 0⟩] ∧
     mlBoldRegistered c8Block.text = [] ∧
     mlItalicRegistered c8Block.text = [] ∧
     mlStrikeRegistered c8Block.text = [] ∧
     replaceCodeBlockDelimiters c8Block.text c8Block (splitOnNl c8File) (-1) =
       [("replace", ⟨⟨1, 0⟩, ⟨1, 5⟩, none⟩),
        ("bold", ⟨⟨1, 0⟩, ⟨1, 0⟩, some (fenceRuleText (strToL "js"))⟩),
        ("replace", ⟨⟨3, 0⟩, ⟨3, 3⟩, none⟩),
        ("bold", ⟨⟨3, 0⟩, ⟨3, 0⟩, some (fenceRuleText [])⟩)]) := by
  refine ⟨?_, ?_, ?_, ?_, ?_, ?_, ?_, ?_, by decide⟩
  · intro m hm
    obtain ⟨hlen, hend, hspan⟩ :=
      boldFindAll_span text m (List.mem_filter.mp hm).1
    exact nlfree_registered_no_touch text z k (k + 12) hz hk1 hk2 m
      (mem_skipContained hm) (by omega) hspan (by omega)
  · intro m hm
    obtain ⟨hlen, hend, hspan⟩ :=
      boldFindAll_span text m (List.mem_filter.mp hm).1
    exact nlfree_registered_no_touch text z k (k + 12) hz hk1 hk2 m
      (containedInAny_append (mem_skipContained hm)).2 (by omega) hspan (by omega)
  · intro m hm
    obtain ⟨hlen, hend, hspan⟩ :=
      strikeFindAll_span text m (List.mem_filter.mp hm).1
    exact nlfree_registered_no_touch text z k (k + 12) hz hk1 hk2 m
      (mem_skipContained hm) (by omega) hspan (by omega)
  · intro m hm
    obtain ⟨hlen, hend, hspan⟩ :=
      strikeFindAll_span text m (List.mem_filter.mp hm).1
    exact nlfree_registered_no_touch text z k (k + 12) hz hk1 hk2 m
      (containedInAny_append (mem_skipContained hm)).2 (by omega) hspan (by omega)
  · intro m hm
    obtain ⟨hle, hma⟩ :=
      findAll_spec italicMultiMatchAt text italicMultiMatchAt_sane m
        (List.mem_filter.mp hm).1
    obtain ⟨hprev, hlen, hne, hstar, htake, hdropHead, -⟩ :=
      italicMultiMatchAt_spec _ _ _ _ _ _ hma
    obtain ⟨hA, hB, hC, hD, hE, hF⟩ :=
      italic_spec_facts text m hle hlen hne hstar htake hdropHead hprev
    exact italic_no_occurrence_touch text k m hocc hA hB hC hD hE hF
  · intro m hm
    obtain ⟨hle, hma⟩ :=
      findAll_spec italicSingleMatchAt text italicSingleMatchAt_sane m
        (List.mem_filter.mp hm).1
    obtain ⟨hprev, hlen, hne, hstar, htake, hdropHead, -⟩ :=
      italicSingleMatchAt_spec _ _ _ _ _ _ hma
    obtain ⟨hA, hB, hC, hD, hE, hF⟩ :=
      italic_spec_facts text m hle hlen hne hstar htake hdropHead hprev
    exact italic_no_occurrence_touch text k m hocc hA hB hC hD hE hF
  · intro comment docLines activeLine m hm ps pe hmap hact
    unfold replaceCodeBlockDelimiters
    constructor
    · apply List.mem_flatMap.mpr
      refine ⟨m, hm, ?_⟩
      rw [hmap]
      simp [hact]
    · apply List.mem_flatMap.mpr
      refine ⟨m, hm, ?_⟩
      rw [hmap]
      simp [hact]
  · intro lang hlang
    simp only [fenceRuleText, hlang, if_neg]
    exact ⟨charRepeat '─' ((80 - (' ' :: (lang ++ [' '])).length) / 2),
           charRepeat '─' ((80 - (' ' :: (lang ++ [' '])).length) -
             (80 - (' ' :: (lang ++ [' '])).length) / 2), rfl⟩

/-- Claim C8 witness: the fenced `js` block of `c8File` (zone 6–19 of the
clean text, literal `**not bold**` at offset 6): the opening delimiter line is
hidden and replaced by the tagged horizontal rule. -/
theorem c8_code_fence_exclusion_witness :
    ("replace", (⟨⟨1, 0⟩, ⟨1, 5⟩, none⟩ : OverlayInstruction)) ∈
        replaceCodeBlockDelimiters c8Block.text c8Block (splitOnNl c8File) (-1) ∧
      ("bold", (⟨⟨1, 0⟩, ⟨1, 0⟩, some (fenceRuleText (strToL "js"))⟩ : OverlayInstruction)) ∈
        replaceCodeBlockDelimiters c8Block.text c8Block (splitOnNl c8File) (-1) :=
  (c8_code_fence_exclusion c8Block.text ⟨6, 19⟩ 6 (by decide) (by decide) (by decide)
    (by decide)).2.2.2.2.2.2.1 c8Block (splitOnNl c8File) (-1)
    ⟨0, 5, strToL "js", [], 0⟩ (by decide) ⟨1, 0⟩ ⟨1, 5⟩ (by decide) (by decide)

/-- Claim C9: toggling the enabled flag off sets every decoration category to
the empty list, and every subsequent decoration-update request while disabled
leaves every category empty (updateDecorations returns immediately when
disabled), until the flag is toggled back on. -/
theorem c9_toggle_disable (s : ProviderState)
    (computed : String → List OverlayInstruction) (h : s.isEnabled = true) :
    (toggle s computed).isEnabled = false ∧
    (∀ cat, (toggle s computed).applied cat = []) ∧
    ∀ updates : List (String → List OverlayInstruction),
      (updates.foldl updateDecorations (toggle s computed)).isEnabled = false ∧
      ∀ cat, (updates.foldl updateDecorations (toggle s computed)).applied cat = [] := by
  have htog : toggle s computed = ⟨false, fun _ => []⟩ := by
    unfold toggle clearAllDecorations
    rw [h]
    simp
  rw [htog]
  refine ⟨rfl, fun cat => rfl, fun updates => ?_⟩
  rw [foldl_updateDecorations_disabled updates _ rfl]
  exact ⟨rfl, fun cat => rfl⟩

/-- Claim C9 witness: a concrete enabled provider with one applied decoration;
after toggling off, the "bold" category is empty and stays empty across a
further update request. -/
theorem c9_toggle_disable_witness :
    (toggle ⟨true, fun _ => [⟨⟨0, 0⟩, ⟨0, 0⟩, none⟩]⟩
        (fun _ => [⟨⟨1, 1⟩, ⟨1, 1⟩, none⟩])).applied "bold" = [] ∧
    (([fun _ => [⟨⟨1, 1⟩, ⟨1, 1⟩, none⟩]] :
        List (String → List OverlayInstruction)).foldl updateDecorations
      (toggle ⟨true, fun _ => [⟨⟨0, 0⟩, ⟨0, 0⟩, none⟩]⟩
        (fun _ => [⟨⟨1, 1⟩, ⟨1, 1⟩, none⟩]))).applied "bold" = [] :=
  ⟨(c9_toggle_disable ⟨true, fun _ => [⟨⟨0, 0⟩, ⟨0, 0⟩, none⟩]⟩
      (fun _ => [⟨⟨1, 1⟩, ⟨1, 1⟩, none⟩]) rfl).2.1 "bold",
   ((c9_toggle_disable ⟨true, fun _ => [⟨⟨0, 0⟩, ⟨0, 0⟩, none⟩]⟩
      (fun _ => [⟨⟨1, 1⟩, ⟨1, 1⟩, none⟩]) rfl).2.2
      [fun _ => [⟨⟨1, 1⟩, ⟨1, 1⟩, none⟩]]).2 "bold"⟩

/-- Claim C10: in markdown-file mode the HTML comment regions are additional
exclusion zones: the bold, italic, inline-code, strikethrough, link and image
passes register no match lying entirely inside an HTML comment range, the
task-item and bullet/numbered-list passes register no (non-degenerate) match
lying entirely inside one either (their start-offset check subsumes it), while
the header passes are not subject to this exclusion — concretely, the line
`# hidden` inside `<!-- ... -->` still yields a registered header match. -/
theorem c10_html_comment_zones (text : List Char) :
    (∀ m ∈ mdBoldRegistered text, ∀ r ∈ htmlCommentRangesOf text,
      ¬(r.start ≤ m.start ∧ m.stop ≤ r.stop)) ∧
    (∀ m ∈ mdItalicRegistered text, ∀ r ∈ htmlCommentRangesOf text,
      ¬(r.start ≤ m.start ∧ m.stop ≤ r.stop)) ∧
    (∀ m ∈ mdCodeRegistered text, ∀ r ∈ htmlCommentRangesOf text,
      ¬(r.start ≤ m.start ∧ m.stop ≤ r.stop)) ∧
    (∀ m ∈ mdStrikeRegistered text, ∀ r ∈ htmlCommentRangesOf text,
      ¬(r.start ≤ m.start ∧ m.stop ≤ r.stop)) ∧
    (∀ m ∈ mdLinkRegistered text, ∀ r ∈ htmlCommentRangesOf text,
      ¬(r.start ≤ m.start ∧ m.stop ≤ r.stop)) ∧
    (∀ m ∈ mdImageRegistered text, ∀ r ∈ htmlCommentRangesOf text,
      ¬(r.start ≤ m.start ∧ m.stop ≤ r.stop)) ∧
    (∀ m ∈ mdTaskRegistered text, m.start < m.stop →
      ∀ r ∈ htmlCommentRangesOf text, ¬(r.start ≤ m.start ∧ m.stop ≤ r.stop)) ∧
    (∀ m ∈ mdBulletRegistered text, m.start < m.stop →
      ∀ r ∈ htmlCommentRangesOf text, ¬(r.start ≤ m.start ∧ m.stop ≤ r.stop)) ∧
    (∀ m ∈ mdNumberedRegistered text, m.start < m.stop →
      ∀ r ∈ htmlCommentRangesOf text, ¬(r.start ≤ m.start ∧ m.stop ≤ r.stop)) ∧
    mdHeaderRegistered 1 (strToL "<!--\n# hidden\n-->") =
      [⟨5, 13, strToL "hidden", [], 0⟩] ∧
    htmlCommentRangesOf (strToL "<!--\n# hidden\n-->") = [⟨0, 17⟩] := by
  refine ⟨fun m hm => containedInAny_eq_false_iff.mp
            (containedInAny_append (mem_skipContained hm)).1,
          fun m hm => containedInAny_eq_false_iff.mp
            (containedInAny_append (mem_skipContained hm)).1,
          fun m hm => containedInAny_eq_false_iff.mp
            (containedInAny_append (mem_skipContained hm)).1,
          fun m hm => containedInAny_eq_false_iff.mp
            (containedInAny_append (mem_skipContained hm)).1,
          fun m hm => containedInAny_eq_false_iff.mp
            (containedInAny_append (mem_skipContained hm)).1,
          fun m hm => containedInAny_eq_false_iff.mp
            (containedInAny_append (mem_skipContained hm)).1,
          fun m hm hne => not_contained_of_startIn_false
            (startInAny_append (mem_skipStartIn hm)).1 hne,
          fun m hm hne => not_contained_of_startIn_false
            (startInAny_append (mem_skipStartIn (List.mem_filter.mp hm).1)).1 hne,
          fun m hm hne => not_contained_of_startIn_false
            (startInAny_append (mem_skipStartIn hm)).1 hne,
          by decide, by decide⟩

/-- Claim C10 witness: in `**b** <!-- x -->` the registered bold match
`**b**` is not contained in the HTML comment region occupying offsets 6–16. -/
theorem c10_html_comment_zones_witness :
    ¬((⟨6, 16⟩ : ExRange).start ≤ (⟨0, 5, strToL "b", [], 0⟩ : MatchSpan).start ∧
      (⟨0, 5, strToL "b", [], 0⟩ : MatchSpan).stop ≤ (⟨6, 16⟩ : ExRange).stop) :=
  (c10_html_comment_zones (strToL "**b** <!-- x -->")).1
    ⟨0, 5, strToL "b", [], 0⟩ (by decide) ⟨6, 16⟩ (by decide)

end MdInComments
